import Mathlib

/-!
# Social network graph engine (`network.h`, `network.cpp`)

A shallow embedding of the class `Network` and of the queries it offers:
connection mutation, breadth-first shortest path, exact-distance lookup,
depth-first connected components and common-neighbour friend suggestion.

Conventions of the embedding.

* C++ `int` is `Int`; every value the code computes is bounded by the number
  of users, which is assumed to fit in an `int`.
* `std::vector<T>` is `List T`; `v[i]` is `vget`, `v[i] = x` is `vset`.
  Indexing outside the vector is undefined behaviour in C++; the model reads a
  default and ignores the write there, and the theorems about the traversals
  assume that friend IDs are valid positions, where no such access happens.
* `std::set<int>` is a `List Int` kept strictly ascending, iterated from the
  head (the iteration order of `std::set`).
* `std::queue<int>` is a `List Int` with the front at the head;
  `std::stack<int>` is a `List Int` with the top at the head.
* A `while` loop whose termination is not structural runs on a fuel counter
  and returns `none` when the counter is exhausted; the theorems show that the
  counter chosen by the model is never exhausted.
* Output on `std::cout` / `std::cerr` is not modelled.
-/

namespace SocialNet

/-! ## Data model -/

/-- Modelled from the spec: the interface of `std::set<int>::insert`, which
`User::addFriend` (user.cpp, not part of the sources) applies to the friend
set; the element is placed at its position in ascending order unless it is
already present. -/
def setInsert (x : Int) : List Int → List Int
  | [] => [x]
  | y :: ys =>
    if x < y then x :: y :: ys
    else if x = y then y :: ys
    else y :: setInsert x ys

/-- Modelled from the spec: the interface of `std::set<int>::erase(key)`, which
`User::deleteFriend` (user.cpp, not part of the sources) applies to the friend
set; every occurrence of the key is removed. -/
def setErase (x : Int) (l : List Int) : List Int :=
  l.filter (fun y => y != x)

/-- Modelled from the spec: the `User` record of user.h (not part of the
sources), "attributes id, name, year, zip, friends (set of integer IDs)". -/
structure User where
  id : Int
  name : String
  year : Int
  zip : Int
  friends : List Int
  deriving DecidableEq, Repr

/-- Modelled from the spec: `User::addFriend` of user.cpp (not part of the
sources), "membership mutation" of the adjacency set: inserts the ID. -/
def User.addFriend (u : User) (id : Int) : User :=
  { u with friends := setInsert id u.friends }

/-- Modelled from the spec: `User::deleteFriend` of user.cpp (not part of the
sources), "membership mutation" of the adjacency set: erases the ID. -/
def User.deleteFriend (u : User) (id : Int) : User :=
  { u with friends := setErase id u.friends }

/-- The class `Network`: `std::vector<User*> users_`, owned by the network. -/
structure Network where
  users : List User
  deriving DecidableEq, Repr

/-- The method `Network::numUsers`. -/
def Network.numUsers (net : Network) : Int := net.users.length

/-- The method `Network::getUser`: `none` is the null pointer. -/
def Network.getUser (net : Network) (id : Int) : Option User :=
  if 0 ≤ id ∧ id < net.users.length then net.users.get? id.toNat else none

/-- The loop of `Network::getId` from position `i` on, over the users from
that position on. -/
def getIdFrom (name : String) : List User → Int → Int
  | [], _ => -1
  | u :: us, i => if u.name = name then i else getIdFrom name us (i + 1)

/-- The method `Network::getId`. -/
def Network.getId (net : Network) (name : String) : Int :=
  getIdFrom name net.users 0

/-- The friend set of the user at position `id` (`getUser(id)->getFriends()`);
empty when there is no such user. -/
def Network.friendsOf (net : Network) (id : Int) : List Int :=
  match net.getUser id with
  | some u => u.friends
  | none => []

/-- Replacing the user stored at position `id` by `f` of it: the effect of a
mutating method called through the pointer `users_[id]`. -/
def Network.modifyUser (net : Network) (id : Int) (f : User → User) : Network :=
  if 0 ≤ id ∧ id < net.users.length then
    { users := net.users.modify f id.toNat }
  else net

/-- The method `Network::addConnection`: the return code and the network
after the call. -/
def Network.addConnection (net : Network) (s1 s2 : String) : Int × Network :=
  if s1 = s2 then (-1, net)
  else
    let id1 := net.getId s1
    let id2 := net.getId s2
    if id1 = -1 ∨ id2 = -1 then (-1, net)
    else if id2 ∈ net.friendsOf id1 then (0, net)
    else
      (1, (net.modifyUser id1 (fun u => u.addFriend id2)).modifyUser id2
            (fun u => u.addFriend id1))

/-- The method `Network::deleteConnection`: the return code and the network
after the call. -/
def Network.deleteConnection (net : Network) (s1 s2 : String) : Int × Network :=
  if s1 = s2 then (-1, net)
  else
    let id1 := net.getId s1
    let id2 := net.getId s2
    if id1 = -1 ∨ id2 = -1 then (-1, net)
    else if ¬ id2 ∈ net.friendsOf id1 then (-1, net)
    else
      (0, (net.modifyUser id1 (fun u => u.deleteFriend id2)).modifyUser id2
            (fun u => u.deleteFriend id1))

/-- A call of one of the two mutators, with its name arguments. -/
inductive Mutation where
  | add (s1 s2 : String)
  | del (s1 s2 : String)
  deriving DecidableEq, Repr

/-- The network after one mutator call; its return code is dropped. -/
def Network.mutate (net : Network) : Mutation → Network
  | .add s1 s2 => (net.addConnection s1 s2).2
  | .del s1 s2 => (net.deleteConnection s1 s2).2

/-- The network after a sequence of mutator calls. -/
def Network.mutateAll (net : Network) (ms : List Mutation) : Network :=
  ms.foldl Network.mutate net

/-- A valid user ID: a position of the user collection. -/
def Network.validId (net : Network) (id : Int) : Prop :=
  0 ≤ id ∧ id < net.numUsers

instance (net : Network) (id : Int) : Decidable (net.validId id) := by
  unfold Network.validId; infer_instance

/-- Friendship is symmetric: over the valid user IDs, `b` is in the friend set
of `a` exactly when `a` is in the friend set of `b`. -/
def Network.Symmetric (net : Network) : Prop :=
  ∀ a b : Int, net.validId a → net.validId b →
    (b ∈ net.friendsOf a ↔ a ∈ net.friendsOf b)

instance (net : Network) : Decidable net.Symmetric :=
  decidable_of_iff
    (∀ a : Nat, a < net.users.length → ∀ b : Nat, b < net.users.length →
      ((b : Int) ∈ net.friendsOf a ↔ (a : Int) ∈ net.friendsOf b))
    (by
      unfold Network.Symmetric Network.validId Network.numUsers
      constructor
      · intro h a b ha hb
        have h1 := h a.toNat (by omega) b.toNat (by omega)
        rwa [Int.toNat_of_nonneg ha.1, Int.toNat_of_nonneg hb.1] at h1
      · intro h a ha b hb
        exact h a b ⟨by omega, by omega⟩ ⟨by omega, by omega⟩)

/-- Every friend ID stored in the network is a valid user ID. -/
def Network.FriendsInRange (net : Network) : Prop :=
  ∀ u ∈ net.users, ∀ f ∈ u.friends, net.validId f

instance (net : Network) : Decidable net.FriendsInRange := by
  unfold Network.FriendsInRange; infer_instance

/-! ## Vectors and loops -/

/-- Reading `v[i]` of a `std::vector`; `d` stands for the undefined value read
outside the vector. -/
def vget {α : Type} (v : List α) (i : Int) (d : α) : α :=
  if 0 ≤ i then v.getD i.toNat d else d

/-- Writing `v[i] = x` of a `std::vector`; nothing is written outside it. -/
def vset {α : Type} (v : List α) (i : Int) (x : α) : List α :=
  if 0 ≤ i then v.set i.toNat x else v

/-- The outcome of running the body of a loop over a range: the loop goes on
with a new state, or the enclosing function returns. -/
inductive LoopStep (σ ρ : Type) where
  | cont (st : σ)
  | ret (r : ρ)
  deriving DecidableEq, Repr

/-- The loop `for (int step = to; step != -1; step = pred[step])
path.push_back(step);` that follows the predecessors back to the source. -/
def walkBack (pred : List Int) : Nat → Int → List Int → Option (List Int)
  | 0, _, _ => none
  | fuel + 1, step, path =>
    if step = -1 then some path
    else walkBack pred fuel (vget pred step (-1)) (path ++ [step])

/-- Path reconstruction: the predecessor chain of the end point `dst`, then
`std::reverse`. -/
def reconstruct (pred : List Int) (dst : Int) : Option (List Int) :=
  (walkBack pred (pred.length + 1) dst []).map List.reverse

/-! ## Shortest path -/

/-- The local variables of `Network::shortestPath`. -/
structure PathState where
  visited : List Bool
  predecessor : List Int
  queue : List Int
  deriving DecidableEq, Repr

/-- The loop `for (int friendId : currentUser->getFriends())` of
`Network::shortestPath`, over the friends still to come. -/
def shortestPathScan (dst current : Int) :
    List Int → PathState → LoopStep PathState (Option (List Int))
  | [], st => .cont st
  | friendId :: rest, st =>
    if vget st.visited friendId false = false then
      let st1 : PathState :=
        { visited := vset st.visited friendId true
          predecessor := vset st.predecessor friendId current
          queue := st.queue ++ [friendId] }
      if friendId = dst then .ret (reconstruct st1.predecessor dst)
      else shortestPathScan dst current rest st1
    else shortestPathScan dst current rest st

/-- The loop `while (!queue.empty())` of `Network::shortestPath`. -/
def shortestPathLoop (net : Network) (dst : Int) : Nat → PathState → Option (List Int)
  | 0, _ => none
  | fuel + 1, st =>
    match st.queue with
    | [] => some []
    | current :: queue =>
      match shortestPathScan dst current (net.friendsOf current)
          { st with queue := queue } with
      | .ret r => r
      | .cont st1 => shortestPathLoop net dst fuel st1

/-- The method `Network::shortestPath`; `src` and `dst` are the parameters
`from` and `to`. -/
def Network.shortestPath (net : Network) (src dst : Int) : Option (List Int) :=
  if src = dst then some [src]
  else
    shortestPathLoop net dst (net.users.length + 1)
      { visited := vset (List.replicate net.users.length false) src true
        predecessor := List.replicate net.users.length (-1)
        queue := [src] }

/-! ## Exact-distance lookup -/

/-- The local variables of `Network::distanceUser`. -/
structure DistState where
  visited : List Bool
  dist : List Int
  pred : List Int
  queue : List Int
  deriving DecidableEq, Repr

/-- The loop `for (int neighbor : getUser(current)->getFriends())` of
`Network::distanceUser`, over the neighbours still to come. The value returned
is the ID written to `to` and the path. -/
def distanceUserScan (distance current : Int) :
    List Int → DistState → LoopStep DistState (Option (Int × List Int))
  | [], st => .cont st
  | neighbor :: rest, st =>
    if vget st.visited neighbor false = false then
      let st1 : DistState :=
        { visited := vset st.visited neighbor true
          pred := vset st.pred neighbor current
          dist := vset st.dist neighbor (vget st.dist current (-1) + 1)
          queue := st.queue ++ [neighbor] }
      if vget st1.dist neighbor (-1) = distance then
        .ret ((reconstruct st1.pred neighbor).map (fun path => (neighbor, path)))
      else distanceUserScan distance current rest st1
    else distanceUserScan distance current rest st

/-- The loop `while (!queue.empty())` of `Network::distanceUser`. -/
def distanceUserLoop (net : Network) (distance : Int) :
    Nat → DistState → Option (Int × List Int)
  | 0, _ => none
  | fuel + 1, st =>
    match st.queue with
    | [] => some (-1, [])
    | current :: queue =>
      match distanceUserScan distance current (net.friendsOf current)
          { st with queue := queue } with
      | .ret r => r
      | .cont st1 => distanceUserLoop net distance fuel st1

/-- The method `Network::distanceUser`; `src` is the parameter `from`. The
result is the value left in `to` and the returned path. -/
def Network.distanceUser (net : Network) (src distance : Int) : Option (Int × List Int) :=
  if src < 0 ∨ src ≥ net.users.length ∨ distance < 0 then some (-1, [])
  else
    distanceUserLoop net distance (net.users.length + 1)
      { visited := vset (List.replicate net.users.length false) src true
        dist := vset (List.replicate net.users.length (-1)) src 0
        pred := List.replicate net.users.length (-1)
        queue := [src] }

/-! ## Friend suggestion -/

/-- The loop `for (int friendsFriendId : friendUser->getFriends())` of
`Network::suggestFriends`; the state is `commonFriendsCount` and `score`. -/
def suggestInner (friends : List Int) (who : Int) :
    List Int → List Int × Int → List Int × Int
  | [], st => st
  | friendsFriendId :: rest, (commonFriendsCount, score) =>
    if friendsFriendId ∈ friends ∨ friendsFriendId = who then
      suggestInner friends who rest (commonFriendsCount, score)
    else
      let count1 := vset commonFriendsCount friendsFriendId
        (vget commonFriendsCount friendsFriendId 0 + 1)
      suggestInner friends who rest (count1, max score (vget count1 friendsFriendId 0))

/-- The loop `for (int friendId : friends)` of `Network::suggestFriends`. -/
def suggestOuter (net : Network) (friends : List Int) (who : Int) :
    List Int → List Int × Int → List Int × Int
  | [], st => st
  | friendId :: rest, st =>
    match net.getUser friendId with
    | some friendUser =>
      suggestOuter net friends who rest (suggestInner friends who friendUser.friends st)
    | none => suggestOuter net friends who rest st

/-- The loop `for (int i = 0; i < commonFriendsCount.size(); ++i)` of
`Network::suggestFriends`, from position `i` on: the positions whose counter
equals the score. -/
def suggestCollect (score : Int) : List Int → Int → List Int
  | [], _ => []
  | c :: rest, i =>
    if c = score then i :: suggestCollect score rest (i + 1)
    else suggestCollect score rest (i + 1)

/-- The method `Network::suggestFriends`: the value left in `score` and the
returned suggestions. -/
def Network.suggestFriends (net : Network) (who : Int) : Int × List Int :=
  match net.getUser who with
  | none => (0, [])
  | some user =>
    let friends := user.friends
    let st := suggestOuter net friends who friends
      (List.replicate net.users.length 0, 0)
    let suggestions := suggestCollect st.2 st.1 0
    if suggestions = [] then (0, suggestions) else (st.2, suggestions)

/-- The common-neighbour count of `c` for `who`: the number of direct friends
`f` of `who` that have `c` in their friend set. -/
def Network.counter (net : Network) (who c : Int) : Nat :=
  ((net.friendsOf who).filter (fun f => decide (c ∈ net.friendsOf f))).length

/-- An eligible candidate for `who`: not `who`, not a direct friend of `who`,
and a friend of at least one direct friend of `who`. -/
def Network.IsCandidate (net : Network) (who c : Int) : Prop :=
  c ≠ who ∧ c ∉ net.friendsOf who ∧ 1 ≤ net.counter who c

instance (net : Network) (who c : Int) : Decidable (net.IsCandidate who c) := by
  unfold Network.IsCandidate; infer_instance

/-! ## Connected components -/

/-- The variables of `Network::dfs`: the two reference parameters and the
local stack. -/
structure DfsState where
  visited : List Bool
  component : List Int
  stack : List Int
  deriving DecidableEq, Repr

/-- The loop `for (int neighbor : getUser(current)->getFriends())` of
`Network::dfs`. -/
def dfsScan : List Int → DfsState → DfsState
  | [], st => st
  | neighbor :: rest, st =>
    if vget st.visited neighbor false = false then
      dfsScan rest { st with
        visited := vset st.visited neighbor true
        stack := neighbor :: st.stack }
    else dfsScan rest st

/-- The loop `while (!stack.empty())` of `Network::dfs`. -/
def dfsLoop (net : Network) : Nat → DfsState → Option DfsState
  | 0, _ => none
  | fuel + 1, st =>
    match st.stack with
    | [] => some st
    | current :: stack =>
      dfsLoop net fuel
        (dfsScan (net.friendsOf current)
          { st with component := st.component ++ [current], stack := stack })

/-- The method `Network::dfs`: `visited` and `component` after the call. -/
def Network.dfs (net : Network) (v : Int) (visited : List Bool) (component : List Int) :
    Option (List Bool × List Int) :=
  (dfsLoop net (net.users.length + 1)
    { visited := vset visited v true, component := component, stack := [v] }).map
    (fun st => (st.visited, st.component))

/-- The loop `for (int i = 0; i < numUsers(); i++)` of `Network::groups`, over
the values of `i` still to come. -/
def groupsLoop (net : Network) :
    List Nat → List Bool → List (List Int) → Option (List (List Int))
  | [], _, components => some components
  | i :: rest, visited, components =>
    if vget visited i false = false then
      match net.dfs i visited [] with
      | none => none
      | some (visited1, component) =>
        groupsLoop net rest visited1 (components ++ [component])
    else groupsLoop net rest visited components

/-- The method `Network::groups`. -/
def Network.groups (net : Network) : Option (List (List Int)) :=
  groupsLoop net (List.range net.users.length)
    (List.replicate net.users.length false) []

/-! ## Walks and distances -/

/-- A walk along friendship edges: every element is followed by one of its
friends. -/
def Network.IsWalk (net : Network) (p : List Int) : Prop :=
  List.Chain' (fun u v => v ∈ net.friendsOf u) p

instance (net : Network) (p : List Int) : Decidable (net.IsWalk p) := by
  unfold Network.IsWalk; infer_instance

/-- A walk from `s` to `t`: a non-empty walk that starts with `s` and ends
with `t`. Its number of edges is its length minus one. -/
def Network.IsWalkFromTo (net : Network) (s t : Int) (p : List Int) : Prop :=
  p.head? = some s ∧ p.getLast? = some t ∧ net.IsWalk p

instance (net : Network) (s t : Int) (p : List Int) : Decidable (net.IsWalkFromTo s t p) := by
  unfold Network.IsWalkFromTo; infer_instance

/-- Reachability: there is a walk from `s` to `t`. -/
def Network.Reachable (net : Network) (s t : Int) : Prop :=
  ∃ p, net.IsWalkFromTo s t p

/-- The breadth-first distance from `s` to `t` is `k`: some walk from `s` to
`t` has `k` edges and none has fewer. -/
def Network.IsDistance (net : Network) (s t : Int) (k : Nat) : Prop :=
  (∃ p, net.IsWalkFromTo s t p ∧ p.length = k + 1) ∧
    ∀ p, net.IsWalkFromTo s t p → k + 1 ≤ p.length

/-- Reachability in exactly `k` steps along friendship edges from `s`. -/
def Network.ReachIn (net : Network) (s : Int) : Nat → Int → Prop
  | 0, v => v = s
  | k + 1, v => ∃ u, net.ReachIn s k u ∧ v ∈ net.friendsOf u

/-- The breadth-first layer of `w` seen from `s` is `d`: `w` is reachable in
`d` steps and in no fewer. -/
def Network.Level (net : Network) (s w : Int) (d : Nat) : Prop :=
  net.ReachIn s d w ∧ ∀ j, net.ReachIn s j w → d ≤ j

/-- The breadth-first search that `shortestPath` and `distanceUser` share,
with the distance vector of `distanceUser` and the test that ends the search
left open: the loop over the friends of `current` still to come. It returns
with the state and the node at which the test holds. -/
def bfsScan (stop : Int → Int → Bool) (current : Int) :
    List Int → DistState → LoopStep DistState (DistState × Int)
  | [], st => .cont st
  | x :: rest, st =>
    if vget st.visited x false = false then
      let st1 : DistState :=
        { visited := vset st.visited x true
          pred := vset st.pred x current
          dist := vset st.dist x (vget st.dist current (-1) + 1)
          queue := st.queue ++ [x] }
      if stop x (vget st1.dist x (-1)) = true then .ret (st1, x)
      else bfsScan stop current rest st1
    else bfsScan stop current rest st

/-- The `while (!queue.empty())` loop of the shared breadth-first search:
`cont` carries the state in which the queue ran empty. -/
def bfsLoop (net : Network) (stop : Int → Int → Bool) :
    Nat → DistState → Option (LoopStep DistState (DistState × Int))
  | 0, _ => none
  | fuel + 1, st =>
    match st.queue with
    | [] => some (.cont st)
    | current :: queue =>
      match bfsScan stop current (net.friendsOf current) { st with queue := queue } with
      | .ret r => some (.ret r)
      | .cont st1 => bfsLoop net stop fuel st1

/-- The state in which both searches start from `src`. -/
def bfsInit (net : Network) (src : Int) : DistState :=
  { visited := vset (List.replicate net.users.length false) src true
    dist := vset (List.replicate net.users.length (-1)) src 0
    pred := List.replicate net.users.length (-1)
    queue := [src] }

/-- The local variables of `shortestPath` inside those of the shared search. -/
def DistState.toPathState (st : DistState) : PathState :=
  { visited := st.visited, predecessor := st.pred, queue := st.queue }

/-- The friend sets are in the form `std::set<int>` keeps them: strictly
ascending, so without repetition. -/
def Network.SetsSorted (net : Network) : Prop :=
  ∀ u ∈ net.users, u.friends.Sorted (· < ·)

instance (net : Network) : Decidable net.SetsSorted := by
  unfold Network.SetsSorted; infer_instance

/-! ## Example networks -/

/-- Three users A, B, C with the single friendship A-B. -/
def netABC : Network :=
  { users := [⟨0, "A", 2000, 90001, [1]⟩, ⟨1, "B", 2001, 90002, [0]⟩,
      ⟨2, "C", 2002, 90003, []⟩] }

/-- Users A, B, C, D, E with the friendships A-B, A-D, B-C, D-C, B-E, D-E. -/
def netTies : Network :=
  { users := [⟨0, "A", 2000, 90001, [1, 3]⟩, ⟨1, "B", 2001, 90002, [0, 2, 4]⟩,
      ⟨2, "C", 2002, 90003, [1, 3]⟩, ⟨3, "D", 2003, 90004, [0, 2, 4]⟩,
      ⟨4, "E", 2004, 90005, [1, 3]⟩] }

/-- Users A, B, C with one-sided friend sets: B lists A and C lists B, while A
lists nobody (a state that `readUsers` can load). -/
def netOneSided : Network :=
  { users := [⟨0, "A", 2000, 90001, []⟩, ⟨1, "B", 2001, 90002, [0]⟩,
      ⟨2, "C", 2002, 90003, [1]⟩] }

/-- A single user without friends. -/
def netSolo : Network :=
  { users := [⟨0, "A", 2000, 90001, []⟩] }

/-- The example of the specification: users A, B, C, D without friends. -/
def netChain0 : Network :=
  { users := [⟨0, "A", 2000, 90001, []⟩, ⟨1, "B", 2001, 90002, []⟩,
      ⟨2, "C", 2002, 90003, []⟩, ⟨3, "D", 2003, 90004, []⟩] }

/-- The example of the specification after connecting A-B, B-C and C-D. -/
def netChain : Network :=
  netChain0.mutateAll [.add "A" "B", .add "B" "C", .add "C" "D"]

/-! ## Invariants of the breadth-first search -/

/-- What the search from `s` knows about the nodes it has marked visited:
`dist` holds their breadth-first layer, `pred` a visited friend one layer
below, and the layers stay below the number of visited nodes. -/
structure TreeInv (net : Network) (s : Int) (visited : List Bool) (dist pred : List Int) :
    Prop where
  lenV : visited.length = net.users.length
  lenD : dist.length = net.users.length
  lenP : pred.length = net.users.length
  srcV : vget visited s false = true
  srcP : vget pred s (-1) = -1
  srcD : vget dist s (-1) = 0
  lvl : ∀ w, vget visited w false = true →
    ∃ d : Nat, vget dist w (-1) = d ∧ net.Level s w d
  tree : ∀ w, vget visited w false = true → w ≠ s →
    vget visited (vget pred w (-1)) false = true ∧
      w ∈ net.friendsOf (vget pred w (-1)) ∧
      vget dist w (-1) = vget dist (vget pred w (-1)) (-1) + 1
  bound : ∀ w, vget visited w false = true →
    vget dist w (-1) + 1 ≤ (visited.count true : Int)

/-- The state of the queue while the friends `rest` of the node `u` of layer
`k` are still to be looked at. -/
structure QueueInv (net : Network) (s : Int) (k : Nat) (u : Int) (rest : List Int)
    (visited : List Bool) (queue : List Int) : Prop where
  curV : vget visited u false = true
  curL : net.Level s u k
  queueV : ∀ w ∈ queue, vget visited w false = true
  qLevel : ∀ w ∈ queue, ∀ d, net.Level s w d → k ≤ d ∧ d ≤ k + 1
  qSorted : queue.Pairwise (fun a b => ∀ da db, net.Level s a da → net.Level s b db → da ≤ db)
  complete : ∀ w j, net.ReachIn s j w → j ≤ k → vget visited w false = true
  closed : ∀ w, vget visited w false = true → w ∉ queue → w ≠ u →
    ∀ x ∈ net.friendsOf w, vget visited x false = true
  done : ∀ x ∈ net.friendsOf u, x ∉ rest → vget visited x false = true

/-- No visited node other than the source passes the test that ends the
search. -/
def NoStop (stop : Int → Int → Bool) (s : Int) (visited : List Bool) (dist : List Int) :
    Prop :=
  ∀ w, vget visited w false = true → w ≠ s → stop w (vget dist w (-1)) = false

/-- The visited nodes are closed under friendship. -/
def Closed (net : Network) (visited : List Bool) : Prop :=
  ∀ w, vget visited w false = true → ∀ x ∈ net.friendsOf w, vget visited x false = true

/-- What holds of the outcome of the shared search from `s`. -/
def BfsResult (net : Network) (stop : Int → Int → Bool) (s : Int) :
    LoopStep DistState (DistState × Int) → Prop
  | .cont st =>
    TreeInv net s st.visited st.dist st.pred ∧ NoStop stop s st.visited st.dist ∧
      Closed net st.visited
  | .ret (st, x) =>
    TreeInv net s st.visited st.dist st.pred ∧ vget st.visited x false = true ∧ x ≠ s ∧
      stop x (vget st.dist x (-1)) = true ∧
      ∀ w, vget st.visited w false = true → w ≠ s → w ≠ x →
        stop w (vget st.dist w (-1)) = false

/-- What holds after the friends of the node `u` of layer `k` have been
looked at. -/
def ScanResult (net : Network) (stop : Int → Int → Bool) (s : Int) (k : Nat) (u : Int) :
    LoopStep DistState (DistState × Int) → Prop
  | .cont st =>
    TreeInv net s st.visited st.dist st.pred ∧ NoStop stop s st.visited st.dist ∧
      QueueInv net s k u [] st.visited st.queue
  | .ret r => BfsResult net stop s (.ret r)

/-- What `distanceUser` makes of the outcome of the friends loop of the shared
search. -/
def distScanView :
    LoopStep DistState (DistState × Int) → LoopStep DistState (Option (Int × List Int))
  | .cont st => .cont st
  | .ret (st, x) => .ret ((reconstruct st.pred x).map (fun path => (x, path)))

/-- What `distanceUser` makes of the outcome of the shared search. -/
def distLoopView :
    Option (LoopStep DistState (DistState × Int)) → Option (Int × List Int)
  | none => none
  | some (.cont _) => some (-1, [])
  | some (.ret (st, x)) => (reconstruct st.pred x).map (fun path => (x, path))

/-- What `shortestPath` makes of the outcome of the friends loop of the shared
search. -/
def pathScanView (dst : Int) :
    LoopStep DistState (DistState × Int) → LoopStep PathState (Option (List Int))
  | .cont st => .cont st.toPathState
  | .ret (st, _) => .ret (reconstruct st.pred dst)

/-- What `shortestPath` makes of the outcome of the shared search. -/
def pathLoopView (dst : Int) :
    Option (LoopStep DistState (DistState × Int)) → Option (List Int)
  | none => none
  | some (.cont _) => some []
  | some (.ret (st, _)) => reconstruct st.pred dst

/-- The bound on the remaining iterations of the `while` loop: the unvisited
nodes and the queued ones. -/
def DistState.measure (st : DistState) : Nat :=
  st.visited.count false + st.queue.length

/-! ## Invariants of the depth-first search -/

/-- The state of `dfs` while `groups` runs: `pre` lists the members of the
components already finished. The visited nodes are exactly those of `pre`, of
the component under construction and of the stack, and none of them is listed
twice. -/
structure DfsInv (net : Network) (pre : List Int) (st : DfsState) : Prop where
  lenV : st.visited.length = net.users.length
  nodup : (pre ++ st.component ++ st.stack).Nodup
  marked : ∀ x, vget st.visited x false = true ↔ x ∈ pre ++ st.component ++ st.stack

/-- The bound on the remaining iterations of the `while` loop of `dfs`: the
unvisited nodes and the stacked ones. -/
def DfsState.measure (st : DfsState) : Nat :=
  st.visited.count false + st.stack.length

/-- The state of `groups` between two rounds of its loop: the visited nodes
are exactly the members of the components found so far, no node is listed
twice, and no component is empty. -/
structure GroupsInv (net : Network) (visited : List Bool) (components : List (List Int)) :
    Prop where
  lenV : visited.length = net.users.length
  nodup : components.flatten.Nodup
  marked : ∀ x, vget visited x false = true ↔ x ∈ components.flatten
  nonempty : ∀ c ∈ components, c ≠ []

/-- What the run of `dfs` from the root `r` knows about its component: the
nodes of the component and of the stack are reachable from `r`, the friends of
the nodes of the component are all visited, and the component starts with
`r` as soon as it has an element. -/
structure DfsReach (net : Network) (r : Int) (st : DfsState) : Prop where
  reach : ∀ x ∈ st.component ++ st.stack, net.Reachable r x
  closed : ∀ x ∈ st.component, ∀ y ∈ net.friendsOf x, vget st.visited y false = true
  head : (st.component = [] ∧ st.stack = [r]) ∨ st.component.head? = some r

/-- The state of `groups` when its loop variable is `i`, in a symmetric
network: the visited nodes are closed under friendship, every ID below `i` is
visited, every component starts with its smallest ID, which is below `i`, and
holds exactly what is reachable from it, and the components come in the order
of their first elements. -/
structure GroupsOrder (net : Network) (i : Nat) (visited : List Bool)
    (components : List (List Int)) : Prop where
  closed : Closed net visited
  below : ∀ j : Nat, j < i → j < net.users.length → vget visited (j : Int) false = true
  comp : ∀ c ∈ components, ∃ r : Nat, c.head? = some (r : Int) ∧ r < i ∧
    (∀ x ∈ c, (r : Int) ≤ x) ∧ ∀ x, x ∈ c ↔ net.Reachable (r : Int) x
  sorted : components.Pairwise
    (fun c1 c2 => ∀ r1 r2 : Int, c1.head? = some r1 → c2.head? = some r2 → r1 < r2)

/-! ## Friend sets -/

theorem mem_setInsert {x a : Int} {l : List Int} :
    x ∈ setInsert a l ↔ x = a ∨ x ∈ l := by
  induction l with
  | nil => simp [setInsert]
  | cons y ys ih =>
    unfold setInsert
    split_ifs with h1 h2
    · simp
    · subst h2; simp
    · simp only [List.mem_cons, ih]; tauto

theorem mem_setErase {x a : Int} {l : List Int} :
    x ∈ setErase a l ↔ x ∈ l ∧ x ≠ a := by
  simp [setErase]

theorem setErase_of_not_mem {a : Int} {l : List Int} (h : a ∉ l) :
    setErase a l = l := by
  unfold setErase
  rw [List.filter_eq_self]
  intro z hz
  have : z ≠ a := fun e => h (e ▸ hz)
  simpa using this

theorem setErase_cons_self (a : Int) (l : List Int) :
    setErase a (a :: l) = setErase a l := by
  simp [setErase]

theorem setErase_cons_ne {a y : Int} (l : List Int) (h : y ≠ a) :
    setErase a (y :: l) = y :: setErase a l := by
  simp [setErase, h]

theorem setErase_setInsert {a : Int} {l : List Int} (h : a ∉ l) :
    setErase a (setInsert a l) = l := by
  induction l with
  | nil => simp [setInsert, setErase]
  | cons y ys ih =>
    have hy : y ≠ a := fun e => h (by simp [e])
    have hys : a ∉ ys := fun e => h (by simp [e])
    unfold setInsert
    split_ifs with h1 h2
    · rw [setErase_cons_self, setErase_of_not_mem h]
    · exact absurd h2.symm hy
    · rw [setErase_cons_ne _ hy, ih hys]

/-! ## Position lookup -/

theorem Network.getUser_eq_some {net : Network} {id : Int} {u : User} :
    net.getUser id = some u ↔ ∃ k : Nat, id = k ∧ net.users[k]? = some u := by
  unfold Network.getUser
  constructor
  · intro h
    split_ifs at h with hr
    refine ⟨id.toNat, by omega, ?_⟩
    simpa [List.get?_eq_getElem?] using h
  · rintro ⟨k, rfl, hk⟩
    have hlt : k < net.users.length := by
      by_contra hc
      rw [List.getElem?_eq_none (by omega)] at hk
      cases hk
    rw [if_pos ⟨by omega, by omega⟩]
    simpa [List.get?_eq_getElem?] using hk

theorem Network.getUser_isSome {net : Network} {id : Int} :
    (net.getUser id).isSome ↔ net.validId id := by
  unfold Network.getUser Network.validId Network.numUsers
  split_ifs with hr
  · have : id.toNat < net.users.length := by omega
    simp [List.get?_eq_getElem?, List.getElem?_eq_getElem this, hr]
  · simp [hr]

theorem Network.getUser_nat {net : Network} (k : Nat) :
    net.getUser (k : Int) = net.users[k]? := by
  unfold Network.getUser
  split_ifs with hr
  · simp [List.get?_eq_getElem?]
  · rw [List.getElem?_eq_none]; omega

theorem Network.validId_iff {net : Network} {id : Int} :
    net.validId id ↔ ∃ k : Nat, id = k ∧ k < net.users.length := by
  unfold Network.validId Network.numUsers
  constructor
  · intro h; exact ⟨id.toNat, by omega, by omega⟩
  · rintro ⟨k, rfl, hk⟩; omega

theorem Network.friendsOf_nat {net : Network} (k : Nat) (h : k < net.users.length) :
    net.friendsOf (k : Int) = (net.users[k]).friends := by
  unfold Network.friendsOf
  rw [Network.getUser_nat, List.getElem?_eq_getElem h]

theorem Network.friendsOf_invalid {net : Network} {id : Int} (h : ¬ net.validId id) :
    net.friendsOf id = [] := by
  unfold Network.friendsOf
  have : net.getUser id = none := by
    rw [← Option.not_isSome_iff_eq_none, Network.getUser_isSome]; exact h
  rw [this]

/-! ## Name lookup -/

theorem getIdFrom_cases (name : String) (us : List User) (i : Int) :
    (getIdFrom name us i = -1 ∧ ∀ u ∈ us, u.name ≠ name) ∨
    (∃ k : Nat, ∃ h : k < us.length, getIdFrom name us i = i + k ∧
      (us[k]).name = name ∧ ∀ j : Nat, ∀ hj : j < us.length, j < k → (us[j]).name ≠ name) := by
  induction us generalizing i with
  | nil => left; simp [getIdFrom]
  | cons u us ih =>
    unfold getIdFrom
    split_ifs with hu
    · right
      exact ⟨0, by simp, by simp, by simpa using hu, fun j _ hj => absurd hj (Nat.not_lt_zero j)⟩
    · rcases ih (i + 1) with ⟨h1, h2⟩ | ⟨k, hk, h1, h2, h3⟩
      · left
        refine ⟨h1, ?_⟩
        intro v hv
        rcases List.mem_cons.1 hv with rfl | hv
        · exact hu
        · exact h2 v hv
      · right
        refine ⟨k + 1, by simpa using hk, ?_, by simpa using h2, ?_⟩
        · rw [h1]; push_cast; ring
        · intro j hj hjk
          cases j with
          | zero => simpa using hu
          | succ j =>
            simp only [List.getElem_cons_succ]
            exact h3 j (by simpa using hj) (by omega)

/-- The result of `getId`: either `-1` and no user carries the name, or the
first position whose user carries the name. -/
theorem Network.getId_cases (net : Network) (name : String) :
    (net.getId name = -1 ∧ ∀ u ∈ net.users, u.name ≠ name) ∨
    (∃ k : Nat, ∃ h : k < net.users.length, net.getId name = k ∧
      (net.users[k]).name = name ∧
      ∀ j : Nat, ∀ hj : j < net.users.length, j < k → (net.users[j]).name ≠ name) := by
  rcases getIdFrom_cases name net.users 0 with h | ⟨k, hk, h1, h2, h3⟩
  · exact Or.inl h
  · exact Or.inr ⟨k, hk, by simpa [Network.getId] using h1, h2, h3⟩

theorem Network.getId_found {net : Network} {name : String} (h : net.getId name ≠ -1) :
    ∃ k : Nat, ∃ hk : k < net.users.length, net.getId name = k ∧
      (net.users[k]).name = name := by
  rcases net.getId_cases name with ⟨h1, _⟩ | ⟨k, hk, h1, h2, _⟩
  · exact absurd h1 h
  · exact ⟨k, hk, h1, h2⟩

/-! ## Updating one user -/

theorem Network.modifyUser_nat (net : Network) (k : Nat) (f : User → User) :
    net.modifyUser (k : Int) f = { users := net.users.modify f k } := by
  unfold Network.modifyUser
  split_ifs with hr
  · simp
  · rw [List.modify_eq_self]; omega

theorem Network.length_modifyUser (net : Network) (id : Int) (f : User → User) :
    (net.modifyUser id f).users.length = net.users.length := by
  unfold Network.modifyUser
  split_ifs <;> simp

theorem Network.validId_modifyUser (net : Network) (id : Int) (f : User → User) (j : Int) :
    (net.modifyUser id f).validId j ↔ net.validId j := by
  simp [Network.validId, Network.numUsers, Network.length_modifyUser]

theorem Network.friendsOf_modifyUser (net : Network) (id : Int) (f : User → User) (j : Int) :
    (net.modifyUser id f).friendsOf j =
      if j = id ∧ net.validId id then
        (match net.getUser id with | some u => (f u).friends | none => [])
      else net.friendsOf j := by
  by_cases hj : net.validId j
  · obtain ⟨kj, rfl, hkj⟩ := Network.validId_iff.1 hj
    by_cases hid : net.validId id
    · obtain ⟨ki, rfl, hki⟩ := Network.validId_iff.1 hid
      rw [Network.modifyUser_nat]
      unfold Network.friendsOf
      simp only [Network.getUser_nat, List.getElem?_modify]
      by_cases e : ki = kj
      · subst e
        simp [List.getElem?_eq_getElem hki, hid]
      · have : ¬ ((kj : Int) = (ki : Int)) := by omega
        simp [e, this]
    · have : ¬ ((kj : Int) = id ∧ net.validId id) := fun h => hid h.2
      rw [if_neg this]
      unfold Network.modifyUser
      rw [if_neg]
      exact hid
  · have h2 : ¬ (net.modifyUser id f).validId j := by
      rwa [Network.validId_modifyUser]
    rw [Network.friendsOf_invalid h2]
    split_ifs with hc
    · exact absurd (hc.1 ▸ hc.2) hj
    · rw [Network.friendsOf_invalid hj]

theorem Network.friendsOf_modifyUser_self (net : Network) (id : Int)
    (g : List Int → List Int) (hid : net.validId id) :
    (net.modifyUser id (fun u => { u with friends := g u.friends })).friendsOf id =
      g (net.friendsOf id) := by
  rw [Network.friendsOf_modifyUser, if_pos ⟨rfl, hid⟩]
  have h := Network.getUser_isSome.2 hid
  unfold Network.friendsOf
  cases hu : net.getUser id with
  | none => rw [hu] at h; cases h
  | some u => rfl

theorem Network.friendsOf_modifyUser_ne (net : Network) (id : Int) (f : User → User)
    {j : Int} (h : j ≠ id) :
    (net.modifyUser id f).friendsOf j = net.friendsOf j := by
  rw [Network.friendsOf_modifyUser, if_neg (fun hc => h hc.1)]

theorem Network.map_name_modifyUser (net : Network) (id : Int) (f : User → User)
    (hf : ∀ u, (f u).name = u.name) :
    (net.modifyUser id f).users.map User.name = net.users.map User.name := by
  unfold Network.modifyUser
  split_ifs
  · apply List.ext_getElem?
    intro n
    simp only [List.getElem?_map, List.getElem?_modify]
    cases net.users[n]? <;> simp
    split_ifs <;> simp [hf]
  · rfl

theorem getIdFrom_congr (name : String) (us vs : List User) (i : Int)
    (h : us.map User.name = vs.map User.name) :
    getIdFrom name us i = getIdFrom name vs i := by
  induction us generalizing vs i with
  | nil =>
    cases vs with
    | nil => rfl
    | cons v vs => simp at h
  | cons u us ih =>
    cases vs with
    | nil => simp at h
    | cons v vs =>
      simp only [List.map_cons, List.cons.injEq] at h
      unfold getIdFrom
      rw [h.1, ih vs (i + 1) h.2]

/-- The user records with the friend sets left out: what a connection
mutation never touches. -/
theorem Network.map_identity_modifyUser (net : Network) (id : Int) (g : List Int → List Int) :
    (net.modifyUser id (fun u => { u with friends := g u.friends })).users.map
        (fun u => (u.id, u.name, u.year, u.zip)) =
      net.users.map (fun u => (u.id, u.name, u.year, u.zip)) := by
  unfold Network.modifyUser
  split_ifs
  · apply List.ext_getElem?
    intro n
    simp only [List.getElem?_map, List.getElem?_modify]
    cases net.users[n]? <;> simp
    split_ifs <;> simp
  · rfl

/-- The friend sets after the same kind of update at both ends of a pair of
distinct valid IDs. -/
theorem Network.friendsOf_pairUpdate (net : Network) {id1 id2 : Int}
    (h1 : net.validId id1) (h2 : net.validId id2) (hne : id1 ≠ id2)
    (g1 g2 : List Int → List Int) (j : Int) :
    ((net.modifyUser id1 (fun u => { u with friends := g1 u.friends })).modifyUser id2
        (fun u => { u with friends := g2 u.friends })).friendsOf j =
      if j = id1 then g1 (net.friendsOf id1)
      else if j = id2 then g2 (net.friendsOf id2)
      else net.friendsOf j := by
  by_cases e2 : j = id2
  · subst e2
    rw [Network.friendsOf_modifyUser_self _ _ _ ((Network.validId_modifyUser _ _ _ _).2 h2),
      Network.friendsOf_modifyUser_ne _ _ _ (Ne.symm hne), if_neg (Ne.symm hne), if_pos rfl]
  · rw [Network.friendsOf_modifyUser_ne _ _ _ e2]
    by_cases e1 : j = id1
    · subst e1
      rw [Network.friendsOf_modifyUser_self _ _ _ h1, if_pos rfl]
    · rw [Network.friendsOf_modifyUser_ne _ _ _ e1, if_neg e1, if_neg e2]

/-- Two different names that both resolve give two different valid IDs. -/
theorem Network.getId_pair {net : Network} {s1 s2 : String} (hs : s1 ≠ s2)
    (h1 : net.getId s1 ≠ -1) (h2 : net.getId s2 ≠ -1) :
    net.validId (net.getId s1) ∧ net.validId (net.getId s2) ∧
      net.getId s1 ≠ net.getId s2 := by
  obtain ⟨k1, hk1, e1, n1⟩ := Network.getId_found h1
  obtain ⟨k2, hk2, e2, n2⟩ := Network.getId_found h2
  refine ⟨Network.validId_iff.2 ⟨k1, e1, hk1⟩, Network.validId_iff.2 ⟨k2, e2, hk2⟩, ?_⟩
  rw [e1, e2]
  intro h
  have : k1 = k2 := by exact_mod_cast h
  subst this
  exact hs (n1.symm.trans n2)

/-- Symmetry survives adding the two directions of one edge. -/
theorem Network.Symmetric.insertPair {net net2 : Network} (hsym : net.Symmetric)
    (id1 id2 : Int) (hlen : net2.users.length = net.users.length)
    (hf : ∀ j x, x ∈ net2.friendsOf j ↔
      (j = id1 ∧ x = id2) ∨ (j = id2 ∧ x = id1) ∨ x ∈ net.friendsOf j) :
    net2.Symmetric := by
  intro a b ha hb
  have ha2 : net.validId a := by
    simpa [Network.validId, Network.numUsers, hlen] using ha
  have hb2 : net.validId b := by
    simpa [Network.validId, Network.numUsers, hlen] using hb
  have hab := hsym a b ha2 hb2
  rw [hf a b, hf b a]
  tauto

/-- Symmetry survives removing the two directions of one edge. -/
theorem Network.Symmetric.erasePair {net net2 : Network} (hsym : net.Symmetric)
    (id1 id2 : Int) (hlen : net2.users.length = net.users.length)
    (hf : ∀ j x, x ∈ net2.friendsOf j ↔
      x ∈ net.friendsOf j ∧ ¬ (j = id1 ∧ x = id2) ∧ ¬ (j = id2 ∧ x = id1)) :
    net2.Symmetric := by
  intro a b ha hb
  have ha2 : net.validId a := by
    simpa [Network.validId, Network.numUsers, hlen] using ha
  have hb2 : net.validId b := by
    simpa [Network.validId, Network.numUsers, hlen] using hb
  have hab := hsym a b ha2 hb2
  rw [hf a b, hf b a]
  tauto

/-- The three outcomes of `addConnection`, with the friend sets after a
successful call. -/
theorem Network.addConnection_cases (net : Network) (s1 s2 : String) :
    (net.addConnection s1 s2 = (-1, net) ∧
        (s1 = s2 ∨ net.getId s1 = -1 ∨ net.getId s2 = -1)) ∨
    (net.addConnection s1 s2 = (0, net) ∧
        ¬ (s1 = s2 ∨ net.getId s1 = -1 ∨ net.getId s2 = -1) ∧
        net.getId s2 ∈ net.friendsOf (net.getId s1)) ∨
    ((net.addConnection s1 s2).1 = 1 ∧
        ¬ (s1 = s2 ∨ net.getId s1 = -1 ∨ net.getId s2 = -1) ∧
        net.getId s2 ∉ net.friendsOf (net.getId s1) ∧
        net.validId (net.getId s1) ∧ net.validId (net.getId s2) ∧
        net.getId s1 ≠ net.getId s2 ∧
        (net.addConnection s1 s2).2.users.map (fun u => (u.id, u.name, u.year, u.zip)) =
          net.users.map (fun u => (u.id, u.name, u.year, u.zip)) ∧
        ∀ j, (net.addConnection s1 s2).2.friendsOf j =
          if j = net.getId s1 then setInsert (net.getId s2) (net.friendsOf (net.getId s1))
          else if j = net.getId s2 then setInsert (net.getId s1) (net.friendsOf (net.getId s2))
          else net.friendsOf j) := by
  unfold Network.addConnection
  by_cases hs : s1 = s2
  · left; simp [hs]
  · rw [if_neg hs]
    simp only
    by_cases hid : net.getId s1 = -1 ∨ net.getId s2 = -1
    · left; rw [if_pos hid]; exact ⟨rfl, Or.inr hid⟩
    · rw [if_neg hid]
      have hno : ¬ (s1 = s2 ∨ net.getId s1 = -1 ∨ net.getId s2 = -1) := by tauto
      by_cases hfr : net.getId s2 ∈ net.friendsOf (net.getId s1)
      · right; left; rw [if_pos hfr]; exact ⟨rfl, hno, hfr⟩
      · right; right
        rw [if_neg hfr]
        obtain ⟨v1, v2, hne⟩ := Network.getId_pair hs (by tauto) (by tauto)
        refine ⟨rfl, hno, hfr, v1, v2, hne, ?_, ?_⟩
        · show ((net.modifyUser _ (fun u => { u with friends := setInsert _ u.friends })).modifyUser _
            (fun u => { u with friends := setInsert _ u.friends })).users.map _ = _
          rw [Network.map_identity_modifyUser, Network.map_identity_modifyUser]
        · intro j
          exact Network.friendsOf_pairUpdate net v1 v2 hne (setInsert (net.getId s2))
            (setInsert (net.getId s1)) j

/-- The two outcomes of `deleteConnection`, with the friend sets after a
successful call. -/
theorem Network.deleteConnection_cases (net : Network) (s1 s2 : String) :
    (net.deleteConnection s1 s2 = (-1, net) ∧
        (s1 = s2 ∨ net.getId s1 = -1 ∨ net.getId s2 = -1 ∨
          net.getId s2 ∉ net.friendsOf (net.getId s1))) ∨
    ((net.deleteConnection s1 s2).1 = 0 ∧
        ¬ (s1 = s2 ∨ net.getId s1 = -1 ∨ net.getId s2 = -1) ∧
        net.getId s2 ∈ net.friendsOf (net.getId s1) ∧
        net.validId (net.getId s1) ∧ net.validId (net.getId s2) ∧
        net.getId s1 ≠ net.getId s2 ∧
        (net.deleteConnection s1 s2).2.users.map (fun u => (u.id, u.name, u.year, u.zip)) =
          net.users.map (fun u => (u.id, u.name, u.year, u.zip)) ∧
        ∀ j, (net.deleteConnection s1 s2).2.friendsOf j =
          if j = net.getId s1 then setErase (net.getId s2) (net.friendsOf (net.getId s1))
          else if j = net.getId s2 then setErase (net.getId s1) (net.friendsOf (net.getId s2))
          else net.friendsOf j) := by
  unfold Network.deleteConnection
  by_cases hs : s1 = s2
  · left; simp [hs]
  · rw [if_neg hs]
    simp only
    by_cases hid : net.getId s1 = -1 ∨ net.getId s2 = -1
    · left; rw [if_pos hid]; exact ⟨rfl, by tauto⟩
    · rw [if_neg hid]
      have hno : ¬ (s1 = s2 ∨ net.getId s1 = -1 ∨ net.getId s2 = -1) := by tauto
      by_cases hfr : net.getId s2 ∈ net.friendsOf (net.getId s1)
      · right
        rw [if_neg (not_not.2 hfr)]
        obtain ⟨v1, v2, hne⟩ := Network.getId_pair hs (by tauto) (by tauto)
        refine ⟨rfl, hno, hfr, v1, v2, hne, ?_, ?_⟩
        · show ((net.modifyUser _ (fun u => { u with friends := setErase _ u.friends })).modifyUser _
            (fun u => { u with friends := setErase _ u.friends })).users.map _ = _
          rw [Network.map_identity_modifyUser, Network.map_identity_modifyUser]
        · intro j
          exact Network.friendsOf_pairUpdate net v1 v2 hne (setErase (net.getId s2))
            (setErase (net.getId s1)) j
      · left; rw [if_pos hfr]; exact ⟨rfl, by tauto⟩

theorem length_of_map_identity {us vs : List User}
    (h : us.map (fun u => (u.id, u.name, u.year, u.zip)) =
      vs.map (fun u => (u.id, u.name, u.year, u.zip))) : us.length = vs.length := by
  simpa using congrArg List.length h

theorem Network.addConnection_symmetric (net : Network) (s1 s2 : String)
    (hsym : net.Symmetric) : (net.addConnection s1 s2).2.Symmetric := by
  rcases net.addConnection_cases s1 s2 with ⟨h, _⟩ | ⟨h, _⟩ | ⟨_, _, _, v1, v2, hne, hm, hf⟩
  · rw [h]; exact hsym
  · rw [h]; exact hsym
  · refine Network.Symmetric.insertPair hsym (net.getId s1) (net.getId s2) (length_of_map_identity hm) ?_
    intro j x
    rw [hf j]
    split_ifs with e1 e2
    · subst e1; rw [mem_setInsert]
      constructor
      · rintro (h | h)
        · exact Or.inl ⟨rfl, h⟩
        · exact Or.inr (Or.inr h)
      · rintro (⟨_, h⟩ | ⟨h, _⟩ | h)
        · exact Or.inl h
        · exact absurd h hne
        · exact Or.inr h
    · subst e2; rw [mem_setInsert]
      constructor
      · rintro (h | h)
        · exact Or.inr (Or.inl ⟨rfl, h⟩)
        · exact Or.inr (Or.inr h)
      · rintro (⟨h, _⟩ | ⟨_, h⟩ | h)
        · exact absurd h e1
        · exact Or.inl h
        · exact Or.inr h
    · constructor
      · intro h; exact Or.inr (Or.inr h)
      · rintro (⟨h, _⟩ | ⟨h, _⟩ | h)
        · exact absurd h e1
        · exact absurd h e2
        · exact h

theorem Network.deleteConnection_symmetric (net : Network) (s1 s2 : String)
    (hsym : net.Symmetric) : (net.deleteConnection s1 s2).2.Symmetric := by
  rcases net.deleteConnection_cases s1 s2 with ⟨h, _⟩ | ⟨_, _, _, v1, v2, hne, hm, hf⟩
  · rw [h]; exact hsym
  · refine Network.Symmetric.erasePair hsym (net.getId s1) (net.getId s2) (length_of_map_identity hm) ?_
    intro j x
    rw [hf j]
    split_ifs with e1 e2
    · subst e1; rw [mem_setErase]
      constructor
      · rintro ⟨h, hx⟩
        exact ⟨h, fun hc => hx hc.2, fun hc => hne hc.1⟩
      · rintro ⟨h, hx, _⟩
        exact ⟨h, fun hc => hx ⟨rfl, hc⟩⟩
    · subst e2; rw [mem_setErase]
      constructor
      · rintro ⟨h, hx⟩
        exact ⟨h, fun hc => e1 hc.1, fun hc => hx hc.2⟩
      · rintro ⟨h, _, hx⟩
        exact ⟨h, fun hc => hx ⟨rfl, hc⟩⟩
    · constructor
      · intro h; exact ⟨h, fun hc => e1 hc.1, fun hc => e2 hc.1⟩
      · intro h; exact h.1

/-! ## Vector reads and writes -/

theorem length_vset {α : Type} (v : List α) (i : Int) (x : α) :
    (vset v i x).length = v.length := by
  unfold vset; split_ifs <;> simp

theorem vget_vset_self {α : Type} (v : List α) {i : Int} (x d : α)
    (h0 : 0 ≤ i) (h1 : i < v.length) : vget (vset v i x) i d = x := by
  unfold vget vset
  rw [if_pos h0, if_pos h0]
  have : i.toNat < v.length := by omega
  simp [List.getD_eq_getElem?_getD, List.getElem?_set, this]

theorem vget_vset_ne {α : Type} (v : List α) {i j : Int} (x d : α) (h : i ≠ j) :
    vget (vset v i x) j d = vget v j d := by
  unfold vget vset
  by_cases hj : 0 ≤ j
  · rw [if_pos hj, if_pos hj]
    by_cases hi : 0 ≤ i
    · rw [if_pos hi]
      have : i.toNat ≠ j.toNat := by omega
      simp [List.getD_eq_getElem?_getD, List.getElem?_set, this]
    · rw [if_neg hi]
  · rw [if_neg hj, if_neg hj]

theorem vget_replicate {α : Type} (n : Nat) (x : α) (i : Int) :
    vget (List.replicate n x) i x = x := by
  unfold vget
  split_ifs
  · simp only [List.getD_eq_getElem?_getD, List.getElem?_replicate]
    split_ifs <;> rfl
  · rfl

theorem vget_of_not_lt {α : Type} (v : List α) {i : Int} (d : α)
    (h : ¬ (0 ≤ i ∧ i < v.length)) : vget v i d = d := by
  unfold vget
  split_ifs with h0
  · have : v.length ≤ i.toNat := by omega
    simp [List.getD_eq_getElem?_getD, List.getElem?_eq_none this]
  · rfl

theorem vget_nat {α : Type} (v : List α) (k : Nat) (d : α) :
    vget v (k : Int) d = v.getD k d := by
  unfold vget
  rw [if_pos (by omega)]
  simp

/-- A `true` read from a flag vector is a read inside the vector. -/
theorem lt_length_of_vget_true {v : List Bool} {i : Int}
    (h : vget v i false = true) : 0 ≤ i ∧ i < v.length := by
  by_contra hc
  rw [vget_of_not_lt v false hc] at h
  cases h

theorem vget_vset {α : Type} (v : List α) (i j : Int) (x d : α)
    (h0 : 0 ≤ i) (h1 : i < v.length) :
    vget (vset v i x) j d = if j = i then x else vget v j d := by
  split_ifs with h
  · subst h; exact vget_vset_self v x d h0 h1
  · exact vget_vset_ne v x d (Ne.symm h)

/-- Setting one `false` flag lowers the number of `false` flags by one. -/
theorem count_false_vset {v : List Bool} {i : Int} (h0 : 0 ≤ i) (h1 : i < v.length)
    (h : vget v i false = false) :
    (vset v i true).count false + 1 = v.count false := by
  unfold vset
  rw [if_pos h0]
  have hi : i.toNat < v.length := by omega
  have hv : v[i.toNat] = false := by
    unfold vget at h
    rw [if_pos h0] at h
    simpa [List.getD_eq_getElem?_getD, List.getElem?_eq_getElem hi] using h
  generalize i.toNat = k at hi hv
  clear h h0 h1
  induction v generalizing k with
  | nil => simp at hi
  | cons b bs ih =>
    cases k with
    | zero =>
      simp only [List.getElem_cons_zero] at hv
      subst hv
      simp
    | succ k =>
      simp only [List.length_cons, Nat.add_lt_add_iff_right] at hi
      simp only [List.getElem_cons_succ] at hv
      have := ih k hi hv
      simp only [List.set_cons_succ, List.count_cons]
      omega

/-- Setting one `false` flag raises the number of `true` flags by one. -/
theorem count_true_vset {v : List Bool} {i : Int} (h0 : 0 ≤ i) (h1 : i < v.length)
    (h : vget v i false = false) :
    (vset v i true).count true = v.count true + 1 := by
  have h2 := count_false_vset h0 h1 h
  have h3 : ∀ l : List Bool, l.count true + l.count false = l.length := by
    intro l
    induction l with
    | nil => rfl
    | cons b bs ih => cases b <;> simp [List.count_cons] <;> omega
  have h4 := h3 v
  have h5 := h3 (vset v i true)
  rw [length_vset] at h5
  omega

theorem count_true_le_length (v : List Bool) : v.count true ≤ v.length :=
  List.count_le_length true v

/-! ## Friends of valid users -/

theorem Network.mem_users_of_friendsOf {net : Network} {u x : Int}
    (h : x ∈ net.friendsOf u) : ∃ usr ∈ net.users, net.getUser u = some usr ∧ x ∈ usr.friends := by
  unfold Network.friendsOf at h
  cases hu : net.getUser u with
  | none => rw [hu] at h; cases h
  | some usr =>
    rw [hu] at h
    obtain ⟨k, _, hk⟩ := Network.getUser_eq_some.1 hu
    exact ⟨usr, List.getElem?_mem hk, rfl, h⟩

/-- With friend IDs in range, every friend of anybody is a valid ID. -/
theorem Network.FriendsInRange.valid {net : Network} (hr : net.FriendsInRange)
    {u x : Int} (h : x ∈ net.friendsOf u) : net.validId x := by
  obtain ⟨usr, hm, _, hx⟩ := Network.mem_users_of_friendsOf h
  exact hr usr hm x hx

/-- Who has a friend is a valid ID. -/
theorem Network.valid_of_friendsOf {net : Network} {u x : Int}
    (h : x ∈ net.friendsOf u) : net.validId u := by
  by_contra hc
  rw [Network.friendsOf_invalid hc] at h
  cases h

theorem Network.SetsSorted.nodup {net : Network} (hs : net.SetsSorted) (u : Int) :
    (net.friendsOf u).Nodup := by
  unfold Network.friendsOf
  cases hu : net.getUser u with
  | none => exact List.nodup_nil
  | some usr =>
    obtain ⟨k, _, hk⟩ := Network.getUser_eq_some.1 hu
    exact (hs usr (List.getElem?_mem hk)).nodup

/-! ## Walks, reachability in `k` steps, layers -/

theorem Network.reachIn_of_walk {net : Network} {s : Int} :
    ∀ (k : Nat) (p : List Int) (t : Int), net.IsWalkFromTo s t p → p.length = k + 1 →
      net.ReachIn s k t := by
  intro k
  induction k with
  | zero =>
    intro p t hp hl
    obtain ⟨a, rfl⟩ := List.length_eq_one.1 hl
    obtain ⟨h1, h2, _⟩ := hp
    simp only [List.head?_cons, Option.some.injEq] at h1
    simp only [List.getLast?_singleton, Option.some.injEq] at h2
    show t = s
    rw [← h2, h1]
  | succ k ih =>
    intro p t hp hl
    obtain ⟨h1, h2, h3⟩ := hp
    have hne : p ≠ [] := by intro h; rw [h] at hl; simp at hl
    obtain ⟨q, b, rfl⟩ : ∃ q b, p = q ++ [b] :=
      ⟨p.dropLast, p.getLast hne, (List.dropLast_append_getLast hne).symm⟩
    have hb : b = t := by simpa using h2
    subst hb
    have hql : q.length = k + 1 := by simpa using hl
    have hqne : q ≠ [] := by intro h; rw [h] at hql; simp at hql
    unfold Network.IsWalk at h3
    rw [List.chain'_append] at h3
    obtain ⟨c1, _, c3⟩ := h3
    refine ⟨q.getLast hqne, ih q _ ⟨?_, List.getLast?_eq_getLast _ hqne, c1⟩ hql, ?_⟩
    · rw [List.head?_append_of_ne_nil _ hqne] at h1
      exact h1
    · exact c3 _ (by rw [List.getLast?_eq_getLast _ hqne]; rfl) _ (by simp)

theorem Network.walk_of_reachIn {net : Network} {s : Int} :
    ∀ (k : Nat) (t : Int), net.ReachIn s k t →
      ∃ p, net.IsWalkFromTo s t p ∧ p.length = k + 1 := by
  intro k
  induction k with
  | zero =>
    intro t h
    have : t = s := h
    subst this
    exact ⟨[t], ⟨rfl, rfl, List.chain'_singleton _⟩, rfl⟩
  | succ k ih =>
    rintro t ⟨u, hu, ht⟩
    obtain ⟨q, ⟨h1, h2, h3⟩, hl⟩ := ih u hu
    have hqne : q ≠ [] := by intro h; rw [h] at hl; simp at hl
    refine ⟨q ++ [t], ⟨?_, by simp, ?_⟩, by simp [hl]⟩
    · rw [List.head?_append_of_ne_nil _ hqne]; exact h1
    · unfold Network.IsWalk
      rw [List.chain'_append]
      refine ⟨h3, List.chain'_singleton _, ?_⟩
      intro x hx y hy
      rw [h2] at hx
      simp only [Option.mem_def, Option.some.injEq] at hx
      simp only [List.head?_cons, Option.mem_def, Option.some.injEq] at hy
      subst hx; subst hy
      exact ht

theorem Network.reachable_iff {net : Network} {s t : Int} :
    net.Reachable s t ↔ ∃ k, net.ReachIn s k t := by
  constructor
  · rintro ⟨p, hp⟩
    have hne : p ≠ [] := by
      intro h; rw [h] at hp; exact absurd hp.1 (by simp)
    refine ⟨p.length - 1, Network.reachIn_of_walk _ p t hp ?_⟩
    have := List.length_pos.2 hne
    omega
  · rintro ⟨k, hk⟩
    obtain ⟨p, hp, _⟩ := Network.walk_of_reachIn k t hk
    exact ⟨p, hp⟩

theorem Network.isDistance_iff_level {net : Network} {s t : Int} {k : Nat} :
    net.IsDistance s t k ↔ net.Level s t k := by
  constructor
  · rintro ⟨⟨p, hp, hl⟩, hmin⟩
    refine ⟨Network.reachIn_of_walk k p t hp hl, ?_⟩
    intro j hj
    obtain ⟨q, hq, hql⟩ := Network.walk_of_reachIn j t hj
    have := hmin q hq
    omega
  · rintro ⟨hr, hmin⟩
    refine ⟨Network.walk_of_reachIn k t hr, ?_⟩
    intro p hp
    have hne : p ≠ [] := by
      intro h; rw [h] at hp; exact absurd hp.1 (by simp)
    have hpos := List.length_pos.2 hne
    have := hmin (p.length - 1) (Network.reachIn_of_walk _ p t hp (by omega))
    omega

theorem Network.Level.unique {net : Network} {s w : Int} {d1 d2 : Nat}
    (h1 : net.Level s w d1) (h2 : net.Level s w d2) : d1 = d2 :=
  le_antisymm (h1.2 d2 h2.1) (h2.2 d1 h1.1)

theorem Network.level_src (net : Network) (s : Int) : net.Level s s 0 :=
  ⟨rfl, fun _ _ => Nat.zero_le _⟩

/-- With friend IDs in range, whatever is reached from a valid ID is valid. -/
theorem Network.ReachIn.validId_of_src {net : Network} (hr : net.FriendsInRange) {s : Int}
    (hs : net.validId s) : ∀ {k : Nat} {w : Int}, net.ReachIn s k w → net.validId w := by
  intro k
  induction k with
  | zero => intro w h; have : w = s := h; rw [this]; exact hs
  | succ k _ => rintro w ⟨u, _, hw⟩; exact hr.valid hw

/-! ## One step of the breadth-first search -/

theorem vget_visited_mono {visited : List Bool} {x w : Int}
    (h : vget visited w false = true) : vget (vset visited x true) w false = true := by
  by_cases e : x = w
  · subst e
    have := lt_length_of_vget_true h
    exact vget_vset_self visited true false this.1 this.2
  · rw [vget_vset_ne visited true false e]; exact h

theorem vget_visited_set {visited : List Bool} {x w : Int}
    (hx : 0 ≤ x ∧ x < visited.length) :
    vget (vset visited x true) w false = true ↔ w = x ∨ vget visited w false = true := by
  rw [vget_vset visited x w true false hx.1 hx.2]
  split_ifs with h
  · simp [h]
  · simp [h]

/-- The tree invariant after a new node `x` is discovered from `u`. -/
theorem TreeInv.grow {net : Network} {s : Int} {visited : List Bool} {dist pred : List Int}
    (ht : TreeInv net s visited dist pred) {u x : Int} {k : Nat}
    (hu : vget visited u false = true) (hk : net.Level s u k)
    (hx : x ∈ net.friendsOf u) (hv : net.validId x)
    (hnv : vget visited x false = false)
    (hmin : ∀ j, net.ReachIn s j x → k + 1 ≤ j) :
    TreeInv net s (vset visited x true) (vset dist x (vget dist u (-1) + 1)) (vset pred x u) ∧
      vget (vset dist x (vget dist u (-1) + 1)) x (-1) = (k : Int) + 1 := by
  have hx0 : 0 ≤ x := hv.1
  have hxn : x < (net.users.length : Int) := hv.2
  have hxV : x < (visited.length : Int) := by rw [ht.lenV]; exact hxn
  have hxD : x < (dist.length : Int) := by rw [ht.lenD]; exact hxn
  have hxP : x < (pred.length : Int) := by rw [ht.lenP]; exact hxn
  have hxs : x ≠ s := by
    intro e; rw [e, ht.srcV] at hnv; cases hnv
  have hxu : x ≠ u := by
    intro e; rw [e, hu] at hnv; cases hnv
  have hDu : vget dist u (-1) = (k : Int) := by
    obtain ⟨d, hd, hl⟩ := ht.lvl u hu
    rw [hd, hl.unique hk]
  have hLx : net.Level s x (k + 1) := ⟨⟨u, hk.1, hx⟩, hmin⟩
  have hDx : vget (vset dist x (vget dist u (-1) + 1)) x (-1) = (k : Int) + 1 := by
    rw [vget_vset_self dist _ _ hx0 hxD, hDu]
  have hold : ∀ w, w ≠ x → vget (vset visited x true) w false = true →
      vget visited w false = true := by
    intro w hw h
    rwa [vget_vset_ne visited true false (Ne.symm hw)] at h
  refine ⟨⟨?_, ?_, ?_, ?_, ?_, ?_, ?_, ?_, ?_⟩, hDx⟩
  · rw [length_vset, ht.lenV]
  · rw [length_vset, ht.lenD]
  · rw [length_vset, ht.lenP]
  · exact vget_visited_mono ht.srcV
  · rw [vget_vset_ne pred _ _ hxs]; exact ht.srcP
  · rw [vget_vset_ne dist _ _ hxs]; exact ht.srcD
  · intro w hw
    by_cases e : w = x
    · subst e
      exact ⟨k + 1, by rw [hDx]; push_cast; rfl, hLx⟩
    · rw [vget_vset_ne dist _ _ (Ne.symm e)]
      exact ht.lvl w (hold w e hw)
  · intro w hw hws
    by_cases e : w = x
    · subst e
      rw [vget_vset_self pred _ _ hx0 hxP]
      refine ⟨vget_visited_mono hu, hx, ?_⟩
      rw [vget_vset_self dist _ _ hx0 hxD, vget_vset_ne dist _ _ hxu]
    · have hwv := hold w e hw
      obtain ⟨t1, t2, t3⟩ := ht.tree w hwv hws
      rw [vget_vset_ne pred _ _ (Ne.symm e)]
      have hpx : vget pred w (-1) ≠ x := by
        intro e2; rw [e2, hnv] at t1; cases t1
      refine ⟨vget_visited_mono t1, t2, ?_⟩
      rw [vget_vset_ne dist _ _ (Ne.symm e), vget_vset_ne dist _ _ (Ne.symm hpx)]
      exact t3
  · intro w hw
    rw [count_true_vset hx0 hxV hnv]
    by_cases e : w = x
    · subst e
      rw [hDx]
      have := ht.bound u hu
      rw [hDu] at this
      push_cast
      omega
    · rw [vget_vset_ne dist _ _ (Ne.symm e)]
      have := ht.bound w (hold w e hw)
      push_cast
      omega

/-- The queue invariant after a new node `x` is discovered from `u`. -/
theorem QueueInv.discover {net : Network} {s : Int} {k : Nat} {u x : Int} {rest : List Int}
    {visited : List Bool} {queue : List Int}
    (hq : QueueInv net s k u (x :: rest) visited queue)
    (hx : x ∈ net.friendsOf u) (hv : 0 ≤ x ∧ x < visited.length)
    (hnv : vget visited x false = false) :
    QueueInv net s k u rest (vset visited x true) (queue ++ [x]) ∧
      ∀ j, net.ReachIn s j x → k + 1 ≤ j := by
  have hmin : ∀ j, net.ReachIn s j x → k + 1 ≤ j := by
    intro j hj
    by_contra hc
    have := hq.complete x j hj (by omega)
    rw [this] at hnv; cases hnv
  have hLx : net.Level s x (k + 1) := ⟨⟨u, hq.curL.1, hx⟩, hmin⟩
  refine ⟨⟨vget_visited_mono hq.curV, hq.curL, ?_, ?_, ?_, ?_, ?_, ?_⟩, hmin⟩
  · intro w hw
    rcases List.mem_append.1 hw with h | h
    · exact vget_visited_mono (hq.queueV w h)
    · rw [List.mem_singleton] at h
      subst h
      exact vget_vset_self visited true false hv.1 hv.2
  · intro w hw d hd
    rcases List.mem_append.1 hw with h | h
    · exact hq.qLevel w h d hd
    · rw [List.mem_singleton] at h
      subst h
      have := hd.unique hLx
      omega
  · rw [List.pairwise_append]
    refine ⟨hq.qSorted, List.pairwise_singleton _ _, ?_⟩
    intro a ha b hb da db hda hdb
    rw [List.mem_singleton] at hb
    subst hb
    have := hdb.unique hLx
    have := (hq.qLevel a ha da hda).2
    omega
  · intro w j hj hjk
    exact vget_visited_mono (hq.complete w j hj hjk)
  · intro w hw hwq hwu y hy
    have hwx : w ≠ x := fun e => hwq (List.mem_append.2 (Or.inr (by simp [e])))
    have hwv : vget visited w false = true := by
      rwa [vget_vset_ne visited true false (Ne.symm hwx)] at hw
    exact vget_visited_mono
      (hq.closed w hwv (fun h => hwq (List.mem_append.2 (Or.inl h))) hwu y hy)
  · intro y hy hyr
    by_cases e : y = x
    · subst e
      exact vget_vset_self visited true false hv.1 hv.2
    · exact vget_visited_mono (hq.done y hy (by
        intro h
        rcases List.mem_cons.1 h with h | h
        · exact e h
        · exact hyr h))

/-- The queue invariant after a friend that is already visited. -/
theorem QueueInv.skip {net : Network} {s : Int} {k : Nat} {u x : Int} {rest : List Int}
    {visited : List Bool} {queue : List Int}
    (hq : QueueInv net s k u (x :: rest) visited queue)
    (hxv : vget visited x false = true) :
    QueueInv net s k u rest visited queue := by
  refine ⟨hq.curV, hq.curL, hq.queueV, hq.qLevel, hq.qSorted, hq.complete, hq.closed, ?_⟩
  intro y hy hyr
  by_cases e : y = x
  · subst e; exact hxv
  · exact hq.done y hy (by
      intro h
      rcases List.mem_cons.1 h with h | h
      · exact e h
      · exact hyr h)

/-- The queue invariant when the next node is taken from the queue. -/
theorem QueueInv.pop {net : Network} {s : Int} {k : Nat} {u v : Int}
    {visited : List Bool} {dist pred : List Int} {queue : List Int}
    (ht : TreeInv net s visited dist pred)
    (hq : QueueInv net s k u [] visited (v :: queue)) :
    ∃ k2, QueueInv net s k2 v (net.friendsOf v) visited queue := by
  have hvV := hq.queueV v (List.mem_cons_self _ _)
  obtain ⟨d, _, hd⟩ := ht.lvl v hvV
  have hdk := hq.qLevel v (List.mem_cons_self _ _) d hd
  have hsorted := List.pairwise_cons.1 hq.qSorted
  have hall : ∀ w, vget visited w false = true → (w = u ∨ w ∉ v :: queue) →
      ∀ x ∈ net.friendsOf w, vget visited x false = true := by
    intro w hw hc x hx
    by_cases e : w = u
    · subst e
      exact hq.done x hx (List.not_mem_nil x)
    · rcases hc with hc | hc
      · exact absurd hc e
      · exact hq.closed w hw hc e x hx
  refine ⟨d, hvV, hd, ?_, ?_, hsorted.2, ?_, ?_, ?_⟩
  · intro w hw
    exact hq.queueV w (List.mem_cons_of_mem _ hw)
  · intro w hw dw hdw
    have h1 := hsorted.1 w hw d dw hd hdw
    have h2 := hq.qLevel w (List.mem_cons_of_mem _ hw) dw hdw
    omega
  · intro w j hj hjd
    by_cases hjk : j ≤ k
    · exact hq.complete w j hj hjk
    · have hj1 : j = k + 1 := by omega
      subst hj1
      obtain ⟨p, hp, hwp⟩ := hj
      have hpV := hq.complete p k hp (le_refl k)
      refine hall p hpV ?_ w hwp
      by_cases e : p = u
      · exact Or.inl e
      · right
        intro hmem
        obtain ⟨dp, _, hdp⟩ := ht.lvl p hpV
        have h1 := hdp.2 k hp
        have h2 : d ≤ dp := by
          rcases List.mem_cons.1 hmem with h | h
          · subst h; exact le_of_eq (hd.unique hdp)
          · exact hsorted.1 p h d dp hd hdp
        omega
  · intro w hw hwq hwv x hx
    refine hall w hw ?_ x hx
    by_cases e : w = u
    · exact Or.inl e
    · right
      intro h
      rcases List.mem_cons.1 h with h | h
      · exact hwv h
      · exact hwq h
  · intro x hx hnx
    exact absurd hx hnx

/-- When the queue runs empty the visited nodes are closed under friendship. -/
theorem QueueInv.closed_of_empty {net : Network} {s : Int} {k : Nat} {u : Int}
    {visited : List Bool} (hq : QueueInv net s k u [] visited []) : Closed net visited := by
  intro w hw x hx
  by_cases e : w = u
  · subst e
    exact hq.done x hx (List.not_mem_nil x)
  · exact hq.closed w hw (List.not_mem_nil w) e x hx

/-- A closed set of visited nodes that holds the source holds all that is
reachable. -/
theorem Closed.reachIn {net : Network} {s : Int} {visited : List Bool}
    (hc : Closed net visited) (hs : vget visited s false = true) :
    ∀ (j : Nat) (w : Int), net.ReachIn s j w → vget visited w false = true := by
  intro j
  induction j with
  | zero => intro w h; have : w = s := h; rw [this]; exact hs
  | succ j ih =>
    rintro w ⟨p, hp, hw⟩
    exact hc p (ih p hp) w hw

/-! ## The loops of the breadth-first search -/

theorem bfsScan_spec {net : Network} (hr : net.FriendsInRange) {stop : Int → Int → Bool}
    {s : Int} {k : Nat} {u : Int} :
    ∀ (rest : List Int) (st : DistState), (∀ y ∈ rest, y ∈ net.friendsOf u) →
      TreeInv net s st.visited st.dist st.pred → NoStop stop s st.visited st.dist →
      QueueInv net s k u rest st.visited st.queue →
      ScanResult net stop s k u (bfsScan stop u rest st) := by
  intro rest
  induction rest with
  | nil => intro st _ ht hn hq; exact ⟨ht, hn, hq⟩
  | cons x rest ih =>
    intro st hsub ht hn hq
    have hx : x ∈ net.friendsOf u := hsub x (List.mem_cons_self _ _)
    have hsub2 : ∀ y ∈ rest, y ∈ net.friendsOf u :=
      fun y hy => hsub y (List.mem_cons_of_mem _ hy)
    unfold bfsScan
    by_cases hv : vget st.visited x false = false
    · rw [if_pos hv]
      have hval := hr.valid hx
      have hxl : 0 ≤ x ∧ x < (st.visited.length : Int) := by
        rw [ht.lenV]; exact hval
      obtain ⟨hq2, hmin⟩ := hq.discover hx hxl hv
      obtain ⟨ht2, hDx⟩ := ht.grow hq.curV hq.curL hx hval hv hmin
      have hxs : x ≠ s := by
        intro e; rw [e, ht.srcV] at hv; cases hv
      have hxD : x < (st.dist.length : Int) := by rw [ht.lenD]; exact hval.2
      have hothers : ∀ w, vget (vset st.visited x true) w false = true → w ≠ s → w ≠ x →
          stop w (vget (vset st.dist x (vget st.dist u (-1) + 1)) w (-1)) = false := by
        intro w hw hws hwx
        rw [vget_vset_ne st.dist _ _ (Ne.symm hwx)]
        rw [vget_vset_ne st.visited true false (Ne.symm hwx)] at hw
        exact hn w hw hws
      simp only
      split_ifs with hstop
      · exact ⟨ht2, vget_vset_self st.visited true false hxl.1 hxl.2, hxs, hstop, hothers⟩
      · refine ih _ hsub2 ht2 ?_ hq2
        intro w hw hws
        by_cases e : w = x
        · subst e
          simpa using hstop
        · exact hothers w hw hws e
    · rw [if_neg hv]
      have hxv : vget st.visited x false = true := by simpa using hv
      exact ih st hsub2 ht hn (hq.skip hxv)

theorem bfsLoop_spec {net : Network} (hr : net.FriendsInRange) {stop : Int → Int → Bool}
    {s : Int} :
    ∀ (fuel : Nat) (st : DistState) (r : LoopStep DistState (DistState × Int)),
      TreeInv net s st.visited st.dist st.pred → NoStop stop s st.visited st.dist →
      (st.queue = [] → Closed net st.visited) →
      (∀ v q, st.queue = v :: q → ∃ k, QueueInv net s k v (net.friendsOf v) st.visited q) →
      bfsLoop net stop fuel st = some r → BfsResult net stop s r := by
  intro fuel
  induction fuel with
  | zero => intro st r _ _ _ _ h; simp [bfsLoop] at h
  | succ fuel ih =>
    intro st r ht hn hnil hcons h
    unfold bfsLoop at h
    cases hq : st.queue with
    | nil =>
      rw [hq] at h
      simp only [Option.some.injEq] at h
      subst h
      exact ⟨ht, hn, hnil hq⟩
    | cons v q =>
      rw [hq] at h
      simp only at h
      obtain ⟨k, hqi⟩ := hcons v q hq
      have hs := bfsScan_spec hr (net.friendsOf v) { st with queue := q }
        (fun y hy => hy) ht hn hqi
      cases hscan : bfsScan stop v (net.friendsOf v) { st with queue := q } with
      | ret r2 =>
        rw [hscan] at h hs
        simp only [Option.some.injEq] at h
        subst h
        exact hs
      | cont st1 =>
        rw [hscan] at h hs
        simp only at h
        obtain ⟨ht1, hn1, hq1⟩ := hs
        refine ih st1 r ht1 hn1 ?_ ?_ h
        · intro he
          rw [he] at hq1
          exact hq1.closed_of_empty
        · intro v2 q2 he
          rw [he] at hq1
          exact hq1.pop ht1

/-! ## Termination -/

theorem bfsScan_measure {stop : Int → Int → Bool} {u : Int} :
    ∀ (rest : List Int) (st : DistState),
      (∀ y ∈ rest, 0 ≤ y ∧ y < (st.visited.length : Int)) →
      ∀ st1, bfsScan stop u rest st = .cont st1 →
        st1.measure ≤ st.measure ∧ st1.visited.length = st.visited.length := by
  intro rest
  induction rest with
  | nil =>
    intro st _ st1 h
    simp only [bfsScan, LoopStep.cont.injEq] at h
    subst h
    exact ⟨le_refl _, rfl⟩
  | cons x rest ih =>
    intro st hy st1 h
    have hx := hy x (List.mem_cons_self _ _)
    unfold bfsScan at h
    by_cases hv : vget st.visited x false = false
    · rw [if_pos hv] at h
      simp only at h
      split_ifs at h with hstop
      obtain ⟨h1, h2⟩ := ih _ (by
        intro y hyr
        simp only [length_vset]
        exact hy y (List.mem_cons_of_mem _ hyr)) st1 h
      have hc := count_false_vset hx.1 hx.2 hv
      simp only [DistState.measure, List.length_append, List.length_singleton,
        length_vset] at h1 h2 ⊢
      exact ⟨by omega, h2⟩
    · rw [if_neg hv] at h
      exact ih st (fun y hyr => hy y (List.mem_cons_of_mem _ hyr)) st1 h

theorem bfsLoop_isSome {net : Network} (hr : net.FriendsInRange) (stop : Int → Int → Bool) :
    ∀ (fuel : Nat) (st : DistState), st.visited.length = net.users.length →
      st.measure < fuel → (bfsLoop net stop fuel st).isSome = true := by
  intro fuel
  induction fuel with
  | zero => intro st _ h; exact absurd h (Nat.not_lt_zero _)
  | succ fuel ih =>
    intro st hl hm
    unfold bfsLoop
    cases hq : st.queue with
    | nil => rfl
    | cons v q =>
      simp only
      cases hscan : bfsScan stop v (net.friendsOf v) { st with queue := q } with
      | ret r2 => rfl
      | cont st1 =>
        simp only
        obtain ⟨h1, h2⟩ := bfsScan_measure (net.friendsOf v) { st with queue := q }
          (by
            intro y hy
            simp only [hl]
            exact hr.valid hy) st1 hscan
        refine ih st1 (by rw [h2]; exact hl) ?_
        simp only [DistState.measure, hq, List.length_cons] at h1 hm ⊢
        omega

/-! ## The start of the search -/

theorem vget_init_visited (n : Nat) {s : Int} (hs : 0 ≤ s ∧ s < (n : Int)) (w : Int) :
    vget (vset (List.replicate n false) s true) w false = true ↔ w = s := by
  rw [vget_vset _ s w true false hs.1 (by simpa using hs.2), vget_replicate]
  split_ifs with h
  · simp [h]
  · simp [h]

theorem treeInv_init {net : Network} {s : Int} (hs : net.validId s) :
    TreeInv net s (bfsInit net s).visited (bfsInit net s).dist (bfsInit net s).pred := by
  have hs2 : 0 ≤ s ∧ s < (net.users.length : Int) := hs
  have hsl : s < ((List.replicate net.users.length false).length : Int) := by simpa using hs2.2
  have hsd : s < ((List.replicate net.users.length (-1 : Int)).length : Int) := by
    simpa using hs2.2
  have hD : vget (vset (List.replicate net.users.length (-1 : Int)) s 0) s (-1) = 0 :=
    vget_vset_self _ _ _ hs2.1 hsd
  unfold bfsInit
  refine ⟨by simp [length_vset], by simp [length_vset], by simp, ?_, ?_, hD, ?_, ?_, ?_⟩
  · exact (vget_init_visited _ hs2 s).2 rfl
  · exact vget_replicate _ _ _
  · intro w hw
    have := (vget_init_visited _ hs2 w).1 hw
    subst this
    exact ⟨0, hD, net.level_src w⟩
  · intro w hw hws
    exact absurd ((vget_init_visited _ hs2 w).1 hw) hws
  · intro w hw
    have := (vget_init_visited _ hs2 w).1 hw
    subst this
    simp only
    rw [hD, count_true_vset hs2.1 hsl (vget_replicate _ _ _)]
    push_cast
    omega

theorem queueInv_init {net : Network} {s : Int} (hs : net.validId s) :
    QueueInv net s 0 s (net.friendsOf s) (bfsInit net s).visited [] := by
  have hs2 : 0 ≤ s ∧ s < (net.users.length : Int) := hs
  unfold bfsInit
  refine ⟨(vget_init_visited _ hs2 s).2 rfl, net.level_src s, ?_, ?_, List.Pairwise.nil,
    ?_, ?_, ?_⟩
  · intro w hw; cases hw
  · intro w hw; cases hw
  · intro w j hj hj0
    have : j = 0 := by omega
    subst this
    have : w = s := hj
    exact (vget_init_visited _ hs2 w).2 this
  · intro w hw _ hws
    exact absurd ((vget_init_visited _ hs2 w).1 hw) hws
  · intro x hx hnx
    exact absurd hx hnx

theorem measure_init {net : Network} {s : Int} (hs : net.validId s) :
    (bfsInit net s).measure = net.users.length := by
  have hs2 : 0 ≤ s ∧ s < (net.users.length : Int) := hs
  have hsl : s < ((List.replicate net.users.length false).length : Int) := by simpa using hs2.2
  have := count_false_vset hs2.1 hsl (vget_replicate _ _ _)
  simp only [DistState.measure, bfsInit, List.length_singleton]
  rw [this, List.count_replicate_self]

/-- The shared search from a valid source returns, and its outcome has the
properties of `BfsResult`. -/
theorem bfs_total {net : Network} (hr : net.FriendsInRange) (stop : Int → Int → Bool)
    {s : Int} (hs : net.validId s) :
    ∃ r, bfsLoop net stop (net.users.length + 1) (bfsInit net s) = some r ∧
      BfsResult net stop s r := by
  have hsome := bfsLoop_isSome hr stop (net.users.length + 1) (bfsInit net s)
    (treeInv_init hs).lenV (by rw [measure_init hs]; omega)
  obtain ⟨r, hr2⟩ := Option.isSome_iff_exists.1 hsome
  refine ⟨r, hr2, bfsLoop_spec hr _ _ r (treeInv_init hs) ?_ ?_ ?_ hr2⟩
  · intro w hw hws
    have hs2 : 0 ≤ s ∧ s < (net.users.length : Int) := hs
    exact absurd ((vget_init_visited _ hs2 w).1 hw) hws
  · intro h; simp [bfsInit] at h
  · intro v q h
    simp only [bfsInit, List.cons.injEq] at h
    obtain ⟨h1, h2⟩ := h
    subst h1; subst h2
    exact ⟨0, queueInv_init hs⟩

/-! ## Path reconstruction -/

theorem walkBack_spec {net : Network} {s : Int} {visited : List Bool} {dist pred : List Int}
    (ht : TreeInv net s visited dist pred) :
    ∀ (d : Nat) (w : Int), vget visited w false = true → vget dist w (-1) = (d : Int) →
      ∀ (fuel : Nat) (acc : List Int), d + 2 ≤ fuel →
        ∃ c, walkBack pred fuel w acc = some (acc ++ c) ∧ c.length = d + 1 ∧
          c.head? = some w ∧ c.getLast? = some s ∧
          List.Chain' (fun a b => a ∈ net.friendsOf b) c := by
  have hs0 : s ≠ -1 := by
    have := lt_length_of_vget_true ht.srcV
    omega
  intro d
  induction d with
  | zero =>
    intro w hw hd fuel acc hf
    have hws : w = s := by
      by_contra hne
      obtain ⟨t1, _, t3⟩ := ht.tree w hw hne
      obtain ⟨dp, hdp, _⟩ := ht.lvl _ t1
      rw [hd, hdp] at t3
      have : (0 : Int) ≤ (dp : Int) := Int.natCast_nonneg _
      simp only [Nat.cast_zero] at t3
      omega
    subst hws
    obtain ⟨f2, rfl⟩ : ∃ f2, fuel = f2 + 2 := ⟨fuel - 2, by omega⟩
    refine ⟨[w], ?_, rfl, rfl, rfl, List.chain'_singleton _⟩
    rw [walkBack, if_neg hs0, ht.srcP, walkBack, if_pos rfl]
  | succ d ih =>
    intro w hw hd fuel acc hf
    have hws : w ≠ s := by
      intro e
      rw [e, ht.srcD] at hd
      have : (0 : Int) ≤ (d : Int) := Int.natCast_nonneg _
      push_cast at hd
      omega
    have hw0 : w ≠ -1 := by
      have := lt_length_of_vget_true hw
      omega
    obtain ⟨t1, t2, t3⟩ := ht.tree w hw hws
    have hdp : vget dist (vget pred w (-1)) (-1) = (d : Int) := by
      rw [hd] at t3; push_cast at t3; omega
    obtain ⟨f2, rfl⟩ : ∃ f2, fuel = f2 + 1 := ⟨fuel - 1, by omega⟩
    obtain ⟨c, hc1, hc2, hc3, hc4, hc5⟩ := ih _ t1 hdp f2 (acc ++ [w]) (by omega)
    refine ⟨w :: c, ?_, by simp [hc2], rfl, ?_, ?_⟩
    · rw [walkBack, if_neg hw0, hc1]
      simp
    · cases c with
      | nil => simp at hc2
      | cons a c2 => rw [List.getLast?_cons_cons]; exact hc4
    · rw [List.chain'_cons']
      refine ⟨?_, hc5⟩
      intro y hy
      rw [hc3] at hy
      simp only [Option.mem_def, Option.some.injEq] at hy
      subst hy
      exact t2

/-- The path reconstructed for a visited node is a walk from the source to it
whose number of edges is the node's layer. -/
theorem reconstruct_spec {net : Network} {s : Int} {visited : List Bool} {dist pred : List Int}
    (ht : TreeInv net s visited dist pred) {w : Int} (hw : vget visited w false = true) :
    ∃ (p : List Int) (d : Nat), reconstruct pred w = some p ∧ vget dist w (-1) = (d : Int) ∧
      net.IsWalkFromTo s w p ∧ p.length = d + 1 ∧ net.Level s w d := by
  obtain ⟨d, hd, hl⟩ := ht.lvl w hw
  have hb := ht.bound w hw
  have hcl := count_true_le_length visited
  rw [ht.lenV] at hcl
  have hfuel : d + 2 ≤ pred.length + 1 := by
    rw [ht.lenP]
    rw [hd] at hb
    have : (d : Int) + 1 ≤ (net.users.length : Int) := by
      have : ((visited.count true : Nat) : Int) ≤ (net.users.length : Int) := by
        exact_mod_cast hcl
      omega
    omega
  obtain ⟨c, hc1, hc2, hc3, hc4, hc5⟩ := walkBack_spec ht d w hw hd _ [] hfuel
  refine ⟨c.reverse, d, ?_, hd, ⟨?_, ?_, ?_⟩, by simp [hc2], hl⟩
  · unfold reconstruct
    rw [hc1]; rfl
  · rw [List.head?_reverse]; exact hc4
  · rw [List.getLast?_reverse]; exact hc3
  · unfold Network.IsWalk
    rw [List.chain'_reverse]
    exact hc5

/-! ## The two searches of the source as instances of the shared one -/

theorem distanceUserScan_eq (distance u : Int) (rest : List Int) (st : DistState) :
    distanceUserScan distance u rest st =
      distScanView (bfsScan (fun _ d => decide (d = distance)) u rest st) := by
  induction rest generalizing st with
  | nil => rfl
  | cons x rest ih =>
    unfold distanceUserScan bfsScan
    by_cases h1 : vget st.visited x false = false
    · rw [if_pos h1, if_pos h1]
      simp only [decide_eq_true_eq]
      by_cases h2 : vget (vset st.dist x (vget st.dist u (-1) + 1)) x (-1) = distance
      · rw [if_pos h2, if_pos h2]; rfl
      · rw [if_neg h2, if_neg h2]; exact ih _
    · rw [if_neg h1, if_neg h1]; exact ih _

theorem distanceUserLoop_eq (net : Network) (distance : Int) (fuel : Nat) (st : DistState) :
    distanceUserLoop net distance fuel st =
      distLoopView (bfsLoop net (fun _ d => decide (d = distance)) fuel st) := by
  induction fuel generalizing st with
  | zero => rfl
  | succ fuel ih =>
    unfold distanceUserLoop bfsLoop
    cases st.queue with
    | nil => rfl
    | cons v q =>
      simp only
      rw [distanceUserScan_eq]
      cases bfsScan (fun _ d => decide (d = distance)) v (net.friendsOf v)
          { st with queue := q } with
      | cont st1 => exact ih st1
      | ret r => rfl

theorem shortestPathScan_eq (dst u : Int) (rest : List Int) (st : DistState) :
    shortestPathScan dst u rest st.toPathState =
      pathScanView dst (bfsScan (fun x _ => decide (x = dst)) u rest st) := by
  induction rest generalizing st with
  | nil => rfl
  | cons x rest ih =>
    unfold shortestPathScan bfsScan
    by_cases h1 : vget st.visited x false = false
    · have h1b : vget st.toPathState.visited x false = false := h1
      rw [if_pos h1, if_pos h1b]
      simp only [decide_eq_true_eq]
      by_cases h2 : x = dst
      · rw [if_pos h2, if_pos h2]; rfl
      · rw [if_neg h2, if_neg h2]
        exact ih
          { visited := vset st.visited x true
            dist := vset st.dist x (vget st.dist u (-1) + 1)
            pred := vset st.pred x u
            queue := st.queue ++ [x] }
    · have h1b : ¬ vget st.toPathState.visited x false = false := h1
      rw [if_neg h1, if_neg h1b]; exact ih _

theorem shortestPathLoop_eq (net : Network) (dst : Int) (fuel : Nat) (st : DistState) :
    shortestPathLoop net dst fuel st.toPathState =
      pathLoopView dst (bfsLoop net (fun x _ => decide (x = dst)) fuel st) := by
  induction fuel generalizing st with
  | zero => rfl
  | succ fuel ih =>
    unfold shortestPathLoop bfsLoop
    simp only [DistState.toPathState]
    cases st.queue with
    | nil => rfl
    | cons v q =>
      simp only
      have h := shortestPathScan_eq dst v (net.friendsOf v) { st with queue := q }
      simp only [DistState.toPathState] at h
      rw [h]
      cases bfsScan (fun x _ => decide (x = dst)) v (net.friendsOf v)
          { st with queue := q } with
      | cont st1 => exact ih st1
      | ret r => rfl

theorem Network.shortestPath_eq (net : Network) {src dst : Int} (h : src ≠ dst) :
    net.shortestPath src dst =
      pathLoopView dst (bfsLoop net (fun x _ => decide (x = dst)) (net.users.length + 1)
        (bfsInit net src)) := by
  unfold Network.shortestPath
  rw [if_neg h, ← shortestPathLoop_eq]
  rfl

theorem Network.distanceUser_eq (net : Network) {src distance : Int}
    (hs : net.validId src) (hd : 0 ≤ distance) :
    net.distanceUser src distance =
      distLoopView (bfsLoop net (fun _ d => decide (d = distance)) (net.users.length + 1)
        (bfsInit net src)) := by
  unfold Network.distanceUser
  have hs2 : 0 ≤ src ∧ src < (net.users.length : Int) := hs
  rw [if_neg (by omega), distanceUserLoop_eq]
  rfl

/-! ## The outcomes of the two searches -/

/-- The two outcomes of `shortestPath` between different IDs: the empty path
when the end point is out of reach, or a walk of as many edges as the layer of
the end point. -/
theorem Network.shortestPath_cases {net : Network} (hr : net.FriendsInRange) {src dst : Int}
    (hs : net.validId src) (hne : src ≠ dst) :
    (net.shortestPath src dst = some [] ∧ ¬ net.Reachable src dst) ∨
    (∃ (p : List Int) (d : Nat), net.shortestPath src dst = some p ∧
      net.IsWalkFromTo src dst p ∧ p.length = d + 1 ∧ net.Level src dst d) := by
  obtain ⟨r, hrun, hres⟩ := bfs_total hr (fun x _ => decide (x = dst)) hs
  rw [Network.shortestPath_eq net hne, hrun]
  cases r with
  | cont st =>
    left
    obtain ⟨ht, hn, hc⟩ := hres
    refine ⟨rfl, ?_⟩
    rw [Network.reachable_iff]
    rintro ⟨k, hk⟩
    have hv := hc.reachIn ht.srcV k dst hk
    have := hn dst hv (Ne.symm hne)
    simp at this
  | ret r =>
    right
    obtain ⟨st, x⟩ := r
    obtain ⟨ht, hv, _, hstop, _⟩ := hres
    have hx : x = dst := by simpa using hstop
    subst hx
    obtain ⟨p, d, h1, _, h3, h4, h5⟩ := reconstruct_spec ht hv
    exact ⟨p, d, h1, h3, h4, h5⟩

/-- The two outcomes of `distanceUser` on valid input: nothing found, and then
no node other than the source lies in the layer asked for; or a node of that
layer with a walk to it of that many edges. -/
theorem Network.distanceUser_cases {net : Network} (hr : net.FriendsInRange)
    {src distance : Int} (hs : net.validId src) (hd : 0 ≤ distance) :
    (net.distanceUser src distance = some (-1, []) ∧
      ∀ (w : Int) (d : Nat), net.Level src w d → w ≠ src → (d : Int) ≠ distance) ∨
    (∃ (x : Int) (p : List Int) (d : Nat), net.distanceUser src distance = some (x, p) ∧
      net.validId x ∧ x ≠ src ∧ net.IsWalkFromTo src x p ∧ p.length = d + 1 ∧
      (d : Int) = distance ∧ net.Level src x d) := by
  obtain ⟨r, hrun, hres⟩ := bfs_total hr (fun _ d => decide (d = distance)) hs
  rw [Network.distanceUser_eq net hs hd, hrun]
  cases r with
  | cont st =>
    left
    obtain ⟨ht, hn, hc⟩ := hres
    refine ⟨rfl, ?_⟩
    intro w d hl hws hdd
    have hv := hc.reachIn ht.srcV d w hl.1
    obtain ⟨d2, hd2, hl2⟩ := ht.lvl w hv
    have := hn w hv hws
    rw [hd2, hl2.unique hl] at this
    simp only [decide_eq_false_iff_not] at this
    exact this hdd
  | ret r =>
    right
    obtain ⟨st, x⟩ := r
    obtain ⟨ht, hv, hxs, hstop, _⟩ := hres
    obtain ⟨p, d, h1, h2, h3, h4, h5⟩ := reconstruct_spec ht hv
    have hdd : (d : Int) = distance := by
      rw [h2] at hstop
      simpa using hstop
    have hval : net.validId x := by
      have := lt_length_of_vget_true hv
      rw [ht.lenV] at this
      exact this
    refine ⟨x, p, d, ?_, hval, hxs, h3, h4, hdd, h5⟩
    show Option.map (fun path => (x, path)) (reconstruct st.pred x) = some (x, p)
    rw [h1]; rfl

/-! ## Depth-first search -/

theorem dfsScan_spec {net : Network} {pre : List Int} :
    ∀ (rest : List Int) (st : DfsState), (∀ y ∈ rest, net.validId y) → DfsInv net pre st →
      DfsInv net pre (dfsScan rest st) ∧ (dfsScan rest st).component = st.component ∧
      (dfsScan rest st).measure ≤ st.measure ∧
      ∀ y, vget st.visited y false = true → vget (dfsScan rest st).visited y false = true := by
  intro rest
  induction rest with
  | nil => intro st _ h; exact ⟨h, rfl, le_refl _, fun _ hy => hy⟩
  | cons x rest ih =>
    intro st hv h
    have hx : 0 ≤ x ∧ x < (st.visited.length : Int) := by
      rw [h.lenV]; exact hv x (List.mem_cons_self _ _)
    have hrest : ∀ y ∈ rest, net.validId y := fun y hy => hv y (List.mem_cons_of_mem _ hy)
    unfold dfsScan
    by_cases hnv : vget st.visited x false = false
    · rw [if_pos hnv]
      have hxm : x ∉ pre ++ st.component ++ st.stack := by
        intro hm
        rw [(h.marked x).2 hm] at hnv
        cases hnv
      have h2 : DfsInv net pre
          { st with visited := vset st.visited x true, stack := x :: st.stack } := by
        refine ⟨by simp only [length_vset]; exact h.lenV, ?_, ?_⟩
        · simp only
          rw [List.nodup_middle, List.nodup_cons]
          exact ⟨hxm, h.nodup⟩
        · intro y
          simp only
          rw [vget_vset st.visited x y true false hx.1 hx.2]
          split_ifs with e
          · subst e; simp
          · rw [h.marked y]
            simp only [List.mem_append, List.mem_cons]
            tauto
      obtain ⟨i1, i2, i3, i4⟩ := ih _ hrest h2
      refine ⟨i1, i2, le_trans i3 ?_, fun y hy => i4 y (vget_visited_mono hy)⟩
      have hc := count_false_vset hx.1 hx.2 hnv
      simp only [DfsState.measure, List.length_cons]
      omega
    · rw [if_neg hnv]
      exact ih st hrest h

theorem dfsLoop_spec {net : Network} (hr : net.FriendsInRange) {pre : List Int} :
    ∀ (fuel : Nat) (st : DfsState), DfsInv net pre st → st.measure < fuel →
      ∃ st1, dfsLoop net fuel st = some st1 ∧ DfsInv net pre st1 ∧ st1.stack = [] ∧
        ∀ y, vget st.visited y false = true → vget st1.visited y false = true := by
  intro fuel
  induction fuel with
  | zero => intro st _ h; exact absurd h (Nat.not_lt_zero _)
  | succ fuel ih =>
    intro st h hm
    unfold dfsLoop
    cases hs : st.stack with
    | nil => exact ⟨st, rfl, h, hs, fun _ hy => hy⟩
    | cons v stack =>
      simp only
      have h2 : DfsInv net pre
          { st with component := st.component ++ [v], stack := stack } := by
        refine ⟨h.lenV, ?_, ?_⟩
        · have := h.nodup
          rw [hs] at this
          simpa [List.append_assoc] using this
        · intro y
          have := h.marked y
          rw [hs] at this
          simpa [List.append_assoc] using this
      obtain ⟨i1, _, i3, i4⟩ := dfsScan_spec (net.friendsOf v) _ (fun y hy => hr.valid hy) h2
      obtain ⟨st1, j1, j2, j3, j4⟩ := ih _ i1 (by
        simp only [DfsState.measure, hs, List.length_cons] at i3 hm ⊢
        omega)
      exact ⟨st1, j1, j2, j3, fun y hy => j4 y (i4 y hy)⟩

/-- One call of `dfs` from `groups`: it returns, and it adds one non-empty
component to the nodes visited so far. -/
theorem dfs_spec {net : Network} (hr : net.FriendsInRange) {visited : List Bool}
    {components : List (List Int)} (hg : GroupsInv net visited components)
    {v : Int} (hv : net.validId v) (hnv : vget visited v false = false) :
    ∃ visited1 component, net.dfs v visited [] = some (visited1, component) ∧
      GroupsInv net visited1 (components ++ [component]) ∧
      vget visited1 v false = true ∧
      ∀ x, vget visited x false = true → vget visited1 x false = true := by
  have hv2 : 0 ≤ v ∧ v < (visited.length : Int) := by rw [hg.lenV]; exact hv
  have hvm : v ∉ components.flatten := by
    intro hm
    rw [(hg.marked v).2 hm] at hnv
    cases hnv
  have h0 : DfsInv net components.flatten
      { visited := vset visited v true, component := [], stack := [v] } := by
    refine ⟨by simp only [length_vset]; exact hg.lenV, ?_, ?_⟩
    · simp only [List.append_nil]
      rw [List.nodup_append]
      refine ⟨hg.nodup, List.nodup_singleton v, ?_⟩
      intro a ha hb
      rw [List.mem_singleton] at hb
      subst hb
      exact hvm ha
    · intro y
      simp only [List.append_nil]
      rw [vget_vset visited v y true false hv2.1 hv2.2]
      split_ifs with e
      · subst e; simp
      · rw [hg.marked y]
        simp only [List.mem_append, List.mem_singleton]
        tauto
  have hm0 : DfsState.measure
      { visited := vset visited v true, component := [], stack := [v] } <
      net.users.length + 1 := by
    have hc := count_false_vset hv2.1 hv2.2 hnv
    have hle := List.count_le_length false visited
    rw [hg.lenV] at hle
    simp only [DfsState.measure, List.length_singleton]
    omega
  obtain ⟨st1, hrun, hinv, hstack, hmono⟩ := dfsLoop_spec hr _ _ h0 hm0
  have hmark : ∀ x, vget st1.visited x false = true ↔
      x ∈ components.flatten ++ st1.component := by
    intro x
    have := hinv.marked x
    rwa [hstack, List.append_nil] at this
  have hvin : vget st1.visited v false = true :=
    hmono v (vget_vset_self visited true false hv2.1 hv2.2)
  refine ⟨st1.visited, st1.component, ?_, ⟨hinv.lenV, ?_, ?_, ?_⟩, hvin, ?_⟩
  · unfold Network.dfs
    rw [hrun]; rfl
  · have := hinv.nodup
    rw [hstack, List.append_nil] at this
    simpa using this
  · intro x
    rw [hmark x]
    simp
  · intro c hc
    rcases List.mem_append.1 hc with h | h
    · exact hg.nonempty c h
    · rw [List.mem_singleton] at h
      subst h
      intro he
      have := (hmark v).1 hvin
      rw [he, List.append_nil] at this
      exact hvm this
  · intro x hx
    exact hmono x (vget_visited_mono hx)

/-! ## Friend suggestion -/

theorem suggestInner_append (friends : List Int) (who : Int) (l1 l2 : List Int)
    (st : List Int × Int) :
    suggestInner friends who (l1 ++ l2) st =
      suggestInner friends who l2 (suggestInner friends who l1 st) := by
  induction l1 generalizing st with
  | nil => rfl
  | cons x xs ih =>
    obtain ⟨cnt, sc⟩ := st
    simp only [List.cons_append, suggestInner]
    split_ifs
    · exact ih _
    · exact ih _

/-- The two nested loops run the inner body over the friend sets of the
friends, one after the other. -/
theorem suggestOuter_eq (net : Network) (friends : List Int) (who : Int) (l : List Int)
    (st : List Int × Int) :
    suggestOuter net friends who l st =
      suggestInner friends who (l.flatMap net.friendsOf) st := by
  induction l generalizing st with
  | nil => rfl
  | cons f fs ih =>
    rw [List.flatMap_cons, suggestInner_append]
    unfold suggestOuter Network.friendsOf
    cases net.getUser f with
    | none => exact ih st
    | some u => exact ih _

/-- The counters and the score after the inner body has run over `l`. -/
theorem suggestInner_spec (friends : List Int) (who : Int) (n : Nat) (l : List Int)
    (hl : ∀ x ∈ l, 0 ≤ x ∧ x < n) (cnt : List Int) (sc : Int)
    (hn : cnt.length = n) (hle : ∀ c, vget cnt c 0 ≤ sc) :
    (suggestInner friends who l (cnt, sc)).1.length = n ∧
    (∀ c, vget (suggestInner friends who l (cnt, sc)).1 c 0 =
      vget cnt c 0 + ((l.filter (fun x => decide (¬ (x ∈ friends ∨ x = who)))).count c : Int)) ∧
    (∀ c, vget (suggestInner friends who l (cnt, sc)).1 c 0 ≤
      (suggestInner friends who l (cnt, sc)).2) ∧
    ((suggestInner friends who l (cnt, sc)).2 = sc ∨
      ∃ c, (suggestInner friends who l (cnt, sc)).2 ≤
        vget (suggestInner friends who l (cnt, sc)).1 c 0) := by
  induction l generalizing cnt sc with
  | nil =>
    refine ⟨hn, ?_, hle, Or.inl rfl⟩
    intro c; simp [suggestInner]
  | cons x xs ih =>
    have hxs : ∀ y ∈ xs, 0 ≤ y ∧ y < n := fun y hy => hl y (List.mem_cons_of_mem _ hy)
    by_cases he : x ∈ friends ∨ x = who
    · have e : suggestInner friends who (x :: xs) (cnt, sc) =
          suggestInner friends who xs (cnt, sc) := by
        simp only [suggestInner, if_pos he]
      rw [e]
      obtain ⟨h1, h2, h3, h4⟩ := ih hxs cnt sc hn hle
      refine ⟨h1, ?_, h3, h4⟩
      intro c
      rw [h2 c, List.filter_cons_of_neg (by simp only [decide_eq_true_eq, not_not]; exact he)]
    · have hx := hl x (List.mem_cons_self _ _)
      have e : suggestInner friends who (x :: xs) (cnt, sc) =
          suggestInner friends who xs
            (vset cnt x (vget cnt x 0 + 1),
              max sc (vget (vset cnt x (vget cnt x 0 + 1)) x 0)) := by
        simp only [suggestInner, if_neg he]
      rw [e]
      have hxl : x < cnt.length := by rw [hn]; exact hx.2
      have hr : vget (vset cnt x (vget cnt x 0 + 1)) x 0 = vget cnt x 0 + 1 :=
        vget_vset_self cnt _ 0 hx.1 hxl
      have hle2 : ∀ c, vget (vset cnt x (vget cnt x 0 + 1)) c 0 ≤
          max sc (vget (vset cnt x (vget cnt x 0 + 1)) x 0) := by
        intro c
        rw [vget_vset cnt x c _ 0 hx.1 hxl]
        split_ifs with hc
        · rw [hr]; exact le_max_right _ _
        · exact le_trans (hle c) (le_max_left _ _)
      obtain ⟨h1, h2, h3, h4⟩ := ih hxs (vset cnt x (vget cnt x 0 + 1)) _
        (by rw [length_vset, hn]) hle2
      refine ⟨h1, ?_, h3, ?_⟩
      · intro c
        rw [h2 c, List.filter_cons_of_pos (by simp only [decide_eq_true_eq]; exact he),
          vget_vset cnt x c _ 0 hx.1 hxl]
        by_cases hc : c = x
        · subst hc
          rw [if_pos rfl, List.count_cons_self]
          push_cast; ring
        · rw [if_neg hc, List.count_cons_of_ne hc]
      · rcases h4 with h4 | ⟨c, hc⟩
        · rcases le_total (vget cnt x 0 + 1) sc with hm | hm
          · left
            rw [h4, hr, max_eq_left hm]
          · right
            refine ⟨x, ?_⟩
            rw [h4, h2 x, hr, max_eq_right hm]
            have : (0 : Int) ≤
                ((xs.filter (fun x => decide (¬ (x ∈ friends ∨ x = who)))).count x : Int) :=
              Int.natCast_nonneg _
            omega
        · exact Or.inr ⟨c, hc⟩

/-- The positions collected by the last loop. -/
theorem mem_suggestCollect (score : Int) (cnt : List Int) (i c : Int) :
    c ∈ suggestCollect score cnt i ↔
      ∃ k : Nat, k < cnt.length ∧ c = i + k ∧ cnt.getD k 0 = score := by
  induction cnt generalizing i with
  | nil => simp [suggestCollect]
  | cons x xs ih =>
    unfold suggestCollect
    have key : (∃ k : Nat, k < (x :: xs).length ∧ c = i + k ∧ (x :: xs).getD k 0 = score) ↔
        (c = i ∧ x = score) ∨
          ∃ k : Nat, k < xs.length ∧ c = i + 1 + k ∧ xs.getD k 0 = score := by
      constructor
      · rintro ⟨k, hk, hc, hs⟩
        cases k with
        | zero => left; exact ⟨by simpa using hc, by simpa using hs⟩
        | succ k =>
          right
          refine ⟨k, by simpa using hk, ?_, by simpa using hs⟩
          rw [hc]; push_cast; ring
      · rintro (⟨hc, hs⟩ | ⟨k, hk, hc, hs⟩)
        · exact ⟨0, by simp, by simpa using hc, by simpa using hs⟩
        · refine ⟨k + 1, by simpa using hk, ?_, by simpa using hs⟩
          rw [hc]; push_cast; ring
    rw [key]
    split_ifs with hx
    · rw [List.mem_cons, ih]
      constructor
      · rintro (h | h)
        · exact Or.inl ⟨h, hx⟩
        · exact Or.inr h
      · rintro (⟨h, _⟩ | h)
        · exact Or.inl h
        · exact Or.inr h
    · rw [ih]
      constructor
      · intro h; exact Or.inr h
      · rintro (⟨_, h⟩ | h)
        · exact absurd h hx
        · exact h

theorem suggestCollect_lower (score : Int) (cnt : List Int) (i : Int) :
    ∀ c ∈ suggestCollect score cnt i, i ≤ c := by
  intro c hc
  obtain ⟨k, _, h, _⟩ := (mem_suggestCollect score cnt i c).1 hc
  omega

theorem nodup_suggestCollect (score : Int) (cnt : List Int) (i : Int) :
    (suggestCollect score cnt i).Nodup := by
  induction cnt generalizing i with
  | nil => simp [suggestCollect]
  | cons x xs ih =>
    unfold suggestCollect
    split_ifs
    · rw [List.nodup_cons]
      refine ⟨?_, ih _⟩
      intro h
      have := suggestCollect_lower score xs (i + 1) i h
      omega
    · exact ih _

/-- The positions collected are the valid positions whose counter is the
score. -/
theorem mem_suggestCollect_zero (score : Int) (cnt : List Int) (c : Int) :
    c ∈ suggestCollect score cnt 0 ↔
      (0 ≤ c ∧ c < cnt.length) ∧ vget cnt c 0 = score := by
  rw [mem_suggestCollect]
  constructor
  · rintro ⟨k, hk, hc, hs⟩
    have : c = (k : Int) := by omega
    subst this
    exact ⟨⟨by omega, by omega⟩, by rw [vget_nat]; exact hs⟩
  · rintro ⟨⟨h0, h1⟩, hs⟩
    refine ⟨c.toNat, by omega, by omega, ?_⟩
    have : c = (c.toNat : Int) := by omega
    rw [this, vget_nat] at hs
    exact hs

/-- Occurrences of `c` in the friend sets of the friends: one per friend that
has `c` as a friend. -/
theorem count_flatMap_friendsOf {net : Network} (hs : net.SetsSorted) (c : Int)
    (l : List Int) :
    (l.flatMap net.friendsOf).count c =
      (l.filter (fun f => decide (c ∈ net.friendsOf f))).length := by
  induction l with
  | nil => rfl
  | cons f fs ih =>
    rw [List.flatMap_cons, List.count_append, ih, List.count_eq_of_nodup (hs.nodup f)]
    by_cases h : c ∈ net.friendsOf f
    · rw [if_pos h, List.filter_cons_of_pos (by simpa using h), List.length_cons]
      omega
    · rw [if_neg h, List.filter_cons_of_neg (by simpa using h)]
      omega

/-- C1: friendship symmetry is an invariant of mutation. Starting from a
network whose friend relation is symmetric over the user IDs, the relation is
still symmetric after any finite sequence of `addConnection` and
`deleteConnection` calls with arbitrary name arguments, whatever each call
returns. -/
theorem symmetric_mutateAll (net : Network) (ms : List Mutation)
    (hsym : net.Symmetric) : (net.mutateAll ms).Symmetric := by
  unfold Network.mutateAll
  induction ms generalizing net with
  | nil => exact hsym
  | cons m ms ih =>
    rw [List.foldl_cons]
    apply ih
    cases m with
    | add s1 s2 => exact net.addConnection_symmetric s1 s2 hsym
    | del s1 s2 => exact net.deleteConnection_symmetric s1 s2 hsym

theorem symmetric_mutateAll_witness :
    netABC.Symmetric ∧
      (netABC.mutateAll [.add "B" "C", .del "A" "B", .add "C" "C", .del "A" "Z",
        .add "C" "A"]).Symmetric :=
  ⟨by decide, symmetric_mutateAll netABC _ (by decide)⟩

/-- C5: `addConnection(s1, s2)` on a symmetric network. It returns -1 and
leaves the network unchanged if `s1 == s2` or one of the names does not
resolve; it returns 0 and leaves the network unchanged if the two resolved
users are already friends; otherwise it returns 1, the two resolved IDs are
distinct valid IDs, each is inserted into the friend set of the other, every
other friend set is unchanged, and so are the position, id, name, year and zip
of every user. -/
theorem addConnection_spec (net : Network) (s1 s2 : String) (hsym : net.Symmetric) :
    ((s1 = s2 ∨ net.getId s1 = -1 ∨ net.getId s2 = -1) →
      net.addConnection s1 s2 = (-1, net)) ∧
    (¬ (s1 = s2 ∨ net.getId s1 = -1 ∨ net.getId s2 = -1) →
      (net.getId s2 ∈ net.friendsOf (net.getId s1) ∨
        net.getId s1 ∈ net.friendsOf (net.getId s2)) →
      net.addConnection s1 s2 = (0, net)) ∧
    (¬ (s1 = s2 ∨ net.getId s1 = -1 ∨ net.getId s2 = -1) →
      ¬ (net.getId s2 ∈ net.friendsOf (net.getId s1) ∨
        net.getId s1 ∈ net.friendsOf (net.getId s2)) →
      (net.addConnection s1 s2).1 = 1 ∧
      net.getId s1 ≠ net.getId s2 ∧
      net.validId (net.getId s1) ∧ net.validId (net.getId s2) ∧
      (net.addConnection s1 s2).2.friendsOf (net.getId s1) =
        setInsert (net.getId s2) (net.friendsOf (net.getId s1)) ∧
      (net.addConnection s1 s2).2.friendsOf (net.getId s2) =
        setInsert (net.getId s1) (net.friendsOf (net.getId s2)) ∧
      (∀ x, x ∈ (net.addConnection s1 s2).2.friendsOf (net.getId s1) ↔
        x = net.getId s2 ∨ x ∈ net.friendsOf (net.getId s1)) ∧
      (∀ x, x ∈ (net.addConnection s1 s2).2.friendsOf (net.getId s2) ↔
        x = net.getId s1 ∨ x ∈ net.friendsOf (net.getId s2)) ∧
      (∀ j, j ≠ net.getId s1 → j ≠ net.getId s2 →
        (net.addConnection s1 s2).2.friendsOf j = net.friendsOf j) ∧
      (net.addConnection s1 s2).2.users.map (fun u => (u.id, u.name, u.year, u.zip)) =
        net.users.map (fun u => (u.id, u.name, u.year, u.zip))) := by
  rcases net.addConnection_cases s1 s2 with
    ⟨h, hc⟩ | ⟨h, hc, hfr⟩ | ⟨h, hc, hfr, v1, v2, hne, hm, hf⟩
  · exact ⟨fun _ => h, fun hn => absurd hc hn, fun hn => absurd hc hn⟩
  · exact ⟨fun hn => absurd hn hc, fun _ _ => h, fun _ hn => absurd (Or.inl hfr) hn⟩
  · refine ⟨fun hn => absurd hn hc, ?_, ?_⟩
    · rintro _ (hx | hx)
      · exact absurd hx hfr
      · exact absurd ((hsym _ _ v1 v2).2 hx) hfr
    · intro _ _
      have e1 := hf (net.getId s1)
      have e2 := hf (net.getId s2)
      rw [if_pos rfl] at e1
      rw [if_neg (Ne.symm hne), if_pos rfl] at e2
      refine ⟨h, hne, v1, v2, e1, e2, ?_, ?_, ?_, hm⟩
      · intro x; rw [e1, mem_setInsert]
      · intro x; rw [e2, mem_setInsert]
      · intro j j1 j2; rw [hf j, if_neg j1, if_neg j2]

theorem addConnection_spec_witness :
    netABC.Symmetric ∧
      (netABC.addConnection "B" "C").1 = 1 ∧
      (netABC.addConnection "B" "C").2.friendsOf 1 = [0, 2] ∧
      (netABC.addConnection "B" "C").2.friendsOf 2 = [1] :=
  ⟨by decide,
    ((addConnection_spec netABC "B" "C" (by decide)).2.2 (by decide) (by decide)).1,
    by decide, by decide⟩

/-- C6: `deleteConnection(s1, s2)` on a symmetric network. It returns -1 and
leaves the network unchanged if `s1 == s2`, if one of the names does not
resolve, or if the two resolved users are not friends; otherwise it returns 0,
each of the two IDs is removed from the friend set of the other, every other
friend set is unchanged, and so are the position, id, name, year and zip of
every user. -/
theorem deleteConnection_spec (net : Network) (s1 s2 : String) (hsym : net.Symmetric) :
    ((s1 = s2 ∨ net.getId s1 = -1 ∨ net.getId s2 = -1) →
      net.deleteConnection s1 s2 = (-1, net)) ∧
    (¬ (s1 = s2 ∨ net.getId s1 = -1 ∨ net.getId s2 = -1) →
      (net.getId s2 ∉ net.friendsOf (net.getId s1) ∨
        net.getId s1 ∉ net.friendsOf (net.getId s2)) →
      net.deleteConnection s1 s2 = (-1, net)) ∧
    (¬ (s1 = s2 ∨ net.getId s1 = -1 ∨ net.getId s2 = -1) →
      ¬ (net.getId s2 ∉ net.friendsOf (net.getId s1) ∨
        net.getId s1 ∉ net.friendsOf (net.getId s2)) →
      (net.deleteConnection s1 s2).1 = 0 ∧
      (net.deleteConnection s1 s2).2.friendsOf (net.getId s1) =
        setErase (net.getId s2) (net.friendsOf (net.getId s1)) ∧
      (net.deleteConnection s1 s2).2.friendsOf (net.getId s2) =
        setErase (net.getId s1) (net.friendsOf (net.getId s2)) ∧
      (∀ x, x ∈ (net.deleteConnection s1 s2).2.friendsOf (net.getId s1) ↔
        x ∈ net.friendsOf (net.getId s1) ∧ x ≠ net.getId s2) ∧
      (∀ x, x ∈ (net.deleteConnection s1 s2).2.friendsOf (net.getId s2) ↔
        x ∈ net.friendsOf (net.getId s2) ∧ x ≠ net.getId s1) ∧
      (∀ j, j ≠ net.getId s1 → j ≠ net.getId s2 →
        (net.deleteConnection s1 s2).2.friendsOf j = net.friendsOf j) ∧
      (net.deleteConnection s1 s2).2.users.map (fun u => (u.id, u.name, u.year, u.zip)) =
        net.users.map (fun u => (u.id, u.name, u.year, u.zip))) := by
  rcases net.deleteConnection_cases s1 s2 with
    ⟨h, hc⟩ | ⟨h, hc, hfr, v1, v2, hne, hm, hf⟩
  · exact ⟨fun _ => h, fun _ _ => h, fun hn hfr => absurd hc (by tauto)⟩
  · refine ⟨fun hn => absurd hn hc, ?_, ?_⟩
    · rintro _ (hx | hx)
      · exact absurd hfr hx
      · exact absurd ((hsym _ _ v1 v2).1 hfr) hx
    · intro _ _
      have e1 := hf (net.getId s1)
      have e2 := hf (net.getId s2)
      rw [if_pos rfl] at e1
      rw [if_neg (Ne.symm hne), if_pos rfl] at e2
      refine ⟨h, e1, e2, ?_, ?_, ?_, hm⟩
      · intro x; rw [e1, mem_setErase]
      · intro x; rw [e2, mem_setErase]
      · intro j j1 j2; rw [hf j, if_neg j1, if_neg j2]

theorem deleteConnection_spec_witness :
    netABC.Symmetric ∧
      (netABC.deleteConnection "A" "B").1 = 0 ∧
      (netABC.deleteConnection "A" "B").2.friendsOf 0 = [] ∧
      (netABC.deleteConnection "A" "B").2.friendsOf 1 = [] :=
  ⟨by decide,
    ((deleteConnection_spec netABC "A" "B" (by decide)).2.2 (by decide) (by decide)).1,
    by decide, by decide⟩

/-- C2: shortest-path optimality. In a network whose friend IDs are all valid,
`shortestPath(from, to)` from a valid `from` returns, and when the path it
returns is not empty, that path is a walk from `from` to `to` along friendship
edges whose number of edges (its length minus 1) is the breadth-first distance
from `from` to `to`: no walk from `from` to `to` has fewer edges. (The
validity of `to` is not needed.) -/
theorem shortestPath_optimal (net : Network) (src dst : Int)
    (hr : net.FriendsInRange) (hs : net.validId src) :
    ∃ p, net.shortestPath src dst = some p ∧
      (p ≠ [] →
        net.IsWalkFromTo src dst p ∧ net.IsDistance src dst (p.length - 1) ∧
        ∀ q, net.IsWalkFromTo src dst q → p.length - 1 ≤ q.length - 1) := by
  by_cases hne : src = dst
  · subst hne
    refine ⟨[src], by simp [Network.shortestPath], fun _ => ?_⟩
    have hw : net.IsWalkFromTo src src [src] := ⟨rfl, rfl, List.chain'_singleton _⟩
    have hl : net.IsDistance src src 0 :=
      Network.isDistance_iff_level.2 (net.level_src src)
    exact ⟨hw, hl, fun q _ => Nat.zero_le _⟩
  · rcases Network.shortestPath_cases hr hs hne with ⟨h, _⟩ | ⟨p, d, h1, h2, h3, h4⟩
    · exact ⟨[], h, fun hc => absurd rfl hc⟩
    · refine ⟨p, h1, fun _ => ⟨h2, ?_, ?_⟩⟩
      · rw [h3, Nat.add_sub_cancel]
        exact Network.isDistance_iff_level.2 h4
      · intro q hq
        have := (Network.isDistance_iff_level.2 h4).2 q hq
        omega

theorem shortestPath_optimal_witness :
    netChain.FriendsInRange ∧ netChain.validId 0 ∧
      ∃ p, netChain.shortestPath 0 3 = some p ∧
        (p ≠ [] →
          netChain.IsWalkFromTo 0 3 p ∧ netChain.IsDistance 0 3 (p.length - 1) ∧
          ∀ q, netChain.IsWalkFromTo 0 3 q → p.length - 1 ≤ q.length - 1) :=
  ⟨by decide, by decide, shortestPath_optimal netChain 0 3 (by decide) (by decide)⟩

/-- The no-path case in terms of reachability alone. In a network whose friend
IDs are all valid, for a valid `from` and a `to` different from it,
`shortestPath(from, to)` returns the empty sequence if and only if `to` is not
reachable from `from` along friendship edges. (The validity of `to` is not
needed.) -/
theorem shortestPath_empty_iff (net : Network) (src dst : Int)
    (hr : net.FriendsInRange) (hs : net.validId src) (hne : src ≠ dst) :
    net.shortestPath src dst = some [] ↔ ¬ net.Reachable src dst := by
  rcases Network.shortestPath_cases hr hs hne with ⟨h, hn⟩ | ⟨p, d, h1, h2, h3, _⟩
  · exact ⟨fun _ => hn, fun _ => h⟩
  · constructor
    · intro h
      rw [h1] at h
      simp only [Option.some.injEq] at h
      rw [h] at h3
      simp at h3
    · intro hn
      exact absurd ⟨p, h2⟩ hn

theorem shortestPath_empty_iff_witness :
    netABC.FriendsInRange ∧ netABC.validId 0 ∧ (0 : Int) ≠ 2 ∧
      netABC.shortestPath 0 2 = some [] ∧ ¬ netABC.Reachable 0 2 :=
  ⟨by decide, by decide, by decide, by decide,
    (shortestPath_empty_iff netABC 0 2 (by decide) (by decide) (by decide)).1 (by decide)⟩

/-- C9: exact-distance lookup, success case. In a network whose friend IDs
are all valid, for a valid `from` and a distance that is not negative,
`distanceUser` returns, and when the ID it leaves in `to` is not -1, the path
it returns is a walk from `from` to `to` along friendship edges (it starts
with `from`, ends with `to`, consecutive elements are friends) with exactly
`distance` edges, and the breadth-first distance from `from` to `to` is
`distance`. -/
theorem distanceUser_found (net : Network) (src distance : Int)
    (hr : net.FriendsInRange) (hs : net.validId src) (hd : 0 ≤ distance) :
    ∃ r, net.distanceUser src distance = some r ∧
      (r.1 ≠ -1 →
        net.IsWalkFromTo src r.1 r.2 ∧ (r.2.length : Int) = distance + 1 ∧
        net.IsDistance src r.1 distance.toNat) := by
  rcases Network.distanceUser_cases hr hs hd with
    ⟨h, _⟩ | ⟨x, p, d, h1, _, _, h2, h3, h4, h5⟩
  · exact ⟨(-1, []), h, fun hc => absurd rfl hc⟩
  · refine ⟨(x, p), h1, fun _ => ⟨h2, ?_, ?_⟩⟩
    · simp only [h3]; push_cast; omega
    · have : distance.toNat = d := by omega
      rw [this]
      exact Network.isDistance_iff_level.2 h5

theorem distanceUser_found_witness :
    netChain.FriendsInRange ∧ netChain.validId 0 ∧ (0 : Int) ≤ 2 ∧
      netChain.distanceUser 0 2 = some (2, [0, 1, 2]) ∧
      ∃ r, netChain.distanceUser 0 2 = some r ∧
        (r.1 ≠ -1 →
          netChain.IsWalkFromTo 0 r.1 r.2 ∧ (r.2.length : Int) = 2 + 1 ∧
          netChain.IsDistance 0 r.1 (2 : Int).toNat) :=
  ⟨by decide, by decide, by decide, by decide,
    distanceUser_found netChain 0 2 (by decide) (by decide) (by decide)⟩

/-- C10, as stated, fails at distance 0: for the single user of `netSolo`,
`distanceUser(0, to, 0)` leaves -1 in `to` and returns the empty path, although
user 0 is at breadth-first distance 0 from itself. -/
theorem distanceUser_zero_counterexample :
    netSolo.FriendsInRange ∧ netSolo.validId 0 ∧
      ¬ (netSolo.distanceUser 0 0 = some (-1, []) ↔
        ¬ ∃ w, netSolo.validId w ∧ netSolo.IsDistance 0 w 0) := by
  refine ⟨by decide, by decide, ?_⟩
  intro h
  have h1 : netSolo.distanceUser 0 0 = some (-1, []) := by decide
  exact h.1 h1 ⟨0, by decide, Network.isDistance_iff_level.2 (netSolo.level_src 0)⟩

/-- C10, amended: exact-distance lookup, not-found case. In a network whose
friend IDs are all valid, for a valid `from` and a distance of at least 1,
`distanceUser` leaves -1 in `to` and returns the empty path if and only if no
user of the network is at breadth-first distance exactly `distance` from
`from`. -/
theorem distanceUser_notFound_iff (net : Network) (src : Int) (k : Nat)
    (hr : net.FriendsInRange) (hs : net.validId src) (hk : 1 ≤ k) :
    net.distanceUser src (k : Int) = some (-1, []) ↔
      ¬ ∃ w, net.validId w ∧ net.IsDistance src w k := by
  rcases Network.distanceUser_cases hr hs (Int.natCast_nonneg k) with
    ⟨h, hn⟩ | ⟨x, p, d, h1, hv, _, _, _, h4, h5⟩
  · refine ⟨fun _ => ?_, fun _ => h⟩
    rintro ⟨w, _, hw⟩
    have hl := Network.isDistance_iff_level.1 hw
    by_cases e : w = src
    · subst e
      have := hl.unique (net.level_src w)
      omega
    · exact hn w k hl e rfl
  · have hdk : d = k := by exact_mod_cast h4
    subst hdk
    constructor
    · intro h
      rw [h1] at h
      simp only [Option.some.injEq, Prod.mk.injEq] at h
      have := hv.1
      omega
    · intro hn
      exact absurd ⟨x, hv, Network.isDistance_iff_level.2 h5⟩ hn

theorem distanceUser_notFound_iff_witness :
    netChain.FriendsInRange ∧ netChain.validId 0 ∧ 1 ≤ 4 ∧
      netChain.distanceUser 0 4 = some (-1, []) ∧
      ¬ ∃ w, netChain.validId w ∧ netChain.IsDistance 0 w 4 :=
  ⟨by decide, by decide, by decide, by decide,
    (distanceUser_notFound_iff netChain 0 4 (by decide) (by decide) (by decide)).1
      (by decide)⟩

/-- C8, the code at the failing input: the only user of `netSolo` has no
friends, so no eligible candidate, and `suggestFriends(0, score)` leaves 0 in
`score` but returns the suggestion `[0]`, the user itself, instead of the
empty set. -/
theorem suggestFriends_friendless :
    netSolo.validId 0 ∧ (∀ c, ¬ netSolo.IsCandidate 0 c) ∧
      netSolo.suggestFriends 0 = (0, [0]) := by
  refine ⟨by decide, ?_, by decide⟩
  intro c hc
  exact Nat.not_succ_le_zero 0 hc.2.2

theorem groupsLoop_spec {net : Network} (hr : net.FriendsInRange) :
    ∀ (todo : List Nat) (visited : List Bool) (components : List (List Int)),
      GroupsInv net visited components → (∀ i ∈ todo, i < net.users.length) →
      ∃ result visited1, groupsLoop net todo visited components = some result ∧
        GroupsInv net visited1 result ∧
        (∀ x, vget visited x false = true → vget visited1 x false = true) ∧
        ∀ i ∈ todo, vget visited1 (i : Int) false = true := by
  intro todo
  induction todo with
  | nil =>
    intro visited components hg _
    exact ⟨components, visited, rfl, hg, fun _ h => h, fun i hi => absurd hi (List.not_mem_nil i)⟩
  | cons i todo ih =>
    intro visited components hg hlt
    have hi : net.validId (i : Int) := by
      have := hlt i (List.mem_cons_self _ _)
      exact ⟨by omega, by unfold Network.numUsers; omega⟩
    have hlt2 : ∀ j ∈ todo, j < net.users.length :=
      fun j hj => hlt j (List.mem_cons_of_mem _ hj)
    unfold groupsLoop
    by_cases hnv : vget visited (i : Int) false = false
    · rw [if_pos hnv]
      obtain ⟨visited1, component, hrun, hg1, hv1, hmono1⟩ := dfs_spec hr hg hi hnv
      rw [hrun]
      simp only
      obtain ⟨result, visited2, h1, h2, h3, h4⟩ := ih visited1 _ hg1 hlt2
      refine ⟨result, visited2, h1, h2, fun x hx => h3 x (hmono1 x hx), ?_⟩
      intro j hj
      rcases List.mem_cons.1 hj with e | hj
      · subst e; exact h3 _ hv1
      · exact h4 j hj
    · rw [if_neg hnv]
      have hv : vget visited (i : Int) false = true := by simpa using hnv
      obtain ⟨result, visited2, h1, h2, h3, h4⟩ := ih visited components hg hlt2
      refine ⟨result, visited2, h1, h2, h3, ?_⟩
      intro j hj
      rcases List.mem_cons.1 hj with e | hj
      · subst e; exact h3 _ hv
      · exact h4 j hj

/-- C4: components partition. In a network whose friend IDs are all valid,
`groups()` returns a list of non-empty components whose concatenation is a
permutation of the IDs `0 .. numUsers-1`: the components are pairwise disjoint,
no ID is listed twice, an ID is listed exactly when it is valid, and the
component sizes sum to `numUsers`. -/
theorem groups_partition (net : Network) (hr : net.FriendsInRange) :
    ∃ components, net.groups = some components ∧
      (∀ c ∈ components, c ≠ []) ∧
      components.flatten.Perm ((List.range net.users.length).map (fun i : Nat => (i : Int))) ∧
      components.flatten.Nodup ∧
      components.Pairwise List.Disjoint ∧
      (∀ x, x ∈ components.flatten ↔ net.validId x) ∧
      (components.map List.length).sum = net.users.length := by
  have h0 : GroupsInv net (List.replicate net.users.length false) [] := by
    refine ⟨by simp, by simp, ?_, by simp⟩
    intro x
    rw [vget_replicate]
    simp
  obtain ⟨result, visited1, hrun, hg, _, hall⟩ :=
    groupsLoop_spec hr (List.range net.users.length) _ [] h0
      (fun i hi => List.mem_range.1 hi)
  have hmem : ∀ x, x ∈ result.flatten ↔ net.validId x := by
    intro x
    rw [← hg.marked x]
    constructor
    · intro hx
      have := lt_length_of_vget_true hx
      rw [hg.lenV] at this
      exact this
    · intro hx
      obtain ⟨k, rfl, hk⟩ := Network.validId_iff.1 hx
      exact hall k (List.mem_range.2 hk)
  have hnd : ((List.range net.users.length).map (fun i : Nat => (i : Int))).Nodup :=
    (List.nodup_range _).map (fun a b h => by exact_mod_cast h)
  have hperm : result.flatten.Perm
      ((List.range net.users.length).map (fun i : Nat => (i : Int))) := by
    rw [List.perm_ext_iff_of_nodup hg.nodup hnd]
    intro x
    rw [hmem x, Network.validId_iff]
    simp only [List.mem_map, List.mem_range]
    constructor
    · rintro ⟨k, rfl, hk⟩; exact ⟨k, hk, rfl⟩
    · rintro ⟨k, hk, rfl⟩; exact ⟨k, rfl, hk⟩
  refine ⟨result, hrun, hg.nonempty, hperm, hg.nodup, (List.nodup_flatten.1 hg.nodup).2, hmem, ?_⟩
  rw [← List.length_flatten, hperm.length_eq]
  simp

theorem groups_partition_witness :
    netABC.FriendsInRange ∧ netABC.groups = some [[0, 1], [2]] ∧
      ∃ components, netABC.groups = some components ∧
        (∀ c ∈ components, c ≠ []) ∧
        components.flatten.Perm
          ((List.range netABC.users.length).map (fun i : Nat => (i : Int))) ∧
        components.flatten.Nodup ∧
        components.Pairwise List.Disjoint ∧
        (∀ x, x ∈ components.flatten ↔ netABC.validId x) ∧
        (components.map List.length).sum = netABC.users.length :=
  ⟨by decide, by decide, groups_partition netABC (by decide)⟩

/-- The counters and the score of `suggestFriends` after its two nested
loops. -/
theorem suggestOuter_spec {net : Network} (hr : net.FriendsInRange) (hs : net.SetsSorted)
    (who : Int) :
    (suggestOuter net (net.friendsOf who) who (net.friendsOf who)
        (List.replicate net.users.length 0, 0)).1.length = net.users.length ∧
    (∀ c, vget (suggestOuter net (net.friendsOf who) who (net.friendsOf who)
        (List.replicate net.users.length 0, 0)).1 c 0 =
      if c ∈ net.friendsOf who ∨ c = who then 0 else (net.counter who c : Int)) ∧
    (∀ c, vget (suggestOuter net (net.friendsOf who) who (net.friendsOf who)
        (List.replicate net.users.length 0, 0)).1 c 0 ≤
      (suggestOuter net (net.friendsOf who) who (net.friendsOf who)
        (List.replicate net.users.length 0, 0)).2) ∧
    ((suggestOuter net (net.friendsOf who) who (net.friendsOf who)
        (List.replicate net.users.length 0, 0)).2 = 0 ∨
      ∃ c, (suggestOuter net (net.friendsOf who) who (net.friendsOf who)
        (List.replicate net.users.length 0, 0)).2 ≤
        vget (suggestOuter net (net.friendsOf who) who (net.friendsOf who)
          (List.replicate net.users.length 0, 0)).1 c 0) := by
  rw [suggestOuter_eq]
  have hl : ∀ x ∈ (net.friendsOf who).flatMap net.friendsOf,
      0 ≤ x ∧ x < (net.users.length : Int) := by
    intro x hx
    obtain ⟨f, _, hf⟩ := List.mem_flatMap.1 hx
    exact hr.valid hf
  obtain ⟨h1, h2, h3, h4⟩ := suggestInner_spec (net.friendsOf who) who net.users.length _ hl
    (List.replicate net.users.length 0) 0 (by simp)
    (by intro c; rw [vget_replicate])
  refine ⟨h1, ?_, h3, h4⟩
  intro c
  rw [h2 c, vget_replicate, zero_add]
  split_ifs with hc
  · rw [List.count_eq_zero_of_not_mem]
    · rfl
    · intro hm
      have := (List.mem_filter.1 hm).2
      simp only [decide_eq_true_eq] at this
      exact this hc
  · rw [List.count_filter (by simp only [decide_eq_true_eq]; exact hc),
      count_flatMap_friendsOf hs]
    rfl

theorem Network.suggestFriends_valid {net : Network} {who : Int} (hw : net.validId who) :
    net.suggestFriends who =
      if suggestCollect
          (suggestOuter net (net.friendsOf who) who (net.friendsOf who)
            (List.replicate net.users.length 0, 0)).2
          (suggestOuter net (net.friendsOf who) who (net.friendsOf who)
            (List.replicate net.users.length 0, 0)).1 0 = [] then
        (0, suggestCollect
          (suggestOuter net (net.friendsOf who) who (net.friendsOf who)
            (List.replicate net.users.length 0, 0)).2
          (suggestOuter net (net.friendsOf who) who (net.friendsOf who)
            (List.replicate net.users.length 0, 0)).1 0)
      else
        ((suggestOuter net (net.friendsOf who) who (net.friendsOf who)
            (List.replicate net.users.length 0, 0)).2,
          suggestCollect
          (suggestOuter net (net.friendsOf who) who (net.friendsOf who)
            (List.replicate net.users.length 0, 0)).2
          (suggestOuter net (net.friendsOf who) who (net.friendsOf who)
            (List.replicate net.users.length 0, 0)).1 0) := by
  have h := Network.getUser_isSome.2 hw
  unfold Network.suggestFriends Network.friendsOf
  cases hu : net.getUser who with
  | none => rw [hu] at h; cases h
  | some u => rfl

/-- C7: friend-suggestion score and ties. In a network whose friend IDs are
all valid (and whose friend sets are `std::set`s), for a valid user `who` with
at least one eligible candidate, `suggestFriends` leaves in `score` the
maximum of `counter` over the candidates, and returns exactly the candidates
whose counter equals that score, each once. -/
theorem suggestFriends_spec (net : Network) (who : Int)
    (hr : net.FriendsInRange) (hs : net.SetsSorted) (hw : net.validId who)
    (hc : ∃ c, net.IsCandidate who c) :
    (∀ c, net.IsCandidate who c → (net.counter who c : Int) ≤ (net.suggestFriends who).1) ∧
    (∃ c, net.IsCandidate who c ∧ (net.counter who c : Int) = (net.suggestFriends who).1) ∧
    (∀ c, c ∈ (net.suggestFriends who).2 ↔
      net.IsCandidate who c ∧ (net.counter who c : Int) = (net.suggestFriends who).1) ∧
    (net.suggestFriends who).2.Nodup := by
  obtain ⟨h1, h2, h3, h4⟩ := suggestOuter_spec hr hs who
  rw [Network.suggestFriends_valid hw]
  generalize suggestOuter net (net.friendsOf who) who (net.friendsOf who)
    (List.replicate net.users.length 0, 0) = st at h1 h2 h3 h4
  obtain ⟨cnt, sc⟩ := st
  simp only at h1 h2 h3 h4 ⊢
  -- the counter of a candidate is stored
  have hcand : ∀ c, net.IsCandidate who c → vget cnt c 0 = (net.counter who c : Int) := by
    intro c hcd
    rw [h2 c, if_neg]
    rintro (h | h)
    · exact hcd.2.1 h
    · exact hcd.1 h
  -- a positive stored counter belongs to a candidate
  have hpos : ∀ c, 1 ≤ vget cnt c 0 →
      net.IsCandidate who c ∧ vget cnt c 0 = (net.counter who c : Int) := by
    intro c hge
    have e := h2 c
    split_ifs at e with hel
    · omega
    · refine ⟨⟨fun h => hel (Or.inr h), fun h => hel (Or.inl h), ?_⟩, e⟩
      omega
  obtain ⟨c0, hc0⟩ := hc
  have hsc : 1 ≤ sc := by
    have := h3 c0
    rw [hcand c0 hc0] at this
    have := hc0.2.2
    omega
  obtain ⟨c1, hc1⟩ : ∃ c, sc ≤ vget cnt c 0 := by
    rcases h4 with h4 | h4
    · omega
    · exact h4
  have hc1e : vget cnt c1 0 = sc := le_antisymm (h3 c1) hc1
  have hc1c := hpos c1 (by omega)
  have hc1r : 0 ≤ c1 ∧ c1 < cnt.length := by
    by_contra hn
    rw [vget_of_not_lt cnt 0 hn] at hc1e
    omega
  have hmem : c1 ∈ suggestCollect sc cnt 0 :=
    (mem_suggestCollect_zero sc cnt c1).2 ⟨hc1r, hc1e⟩
  have hne : suggestCollect sc cnt 0 ≠ [] := List.ne_nil_of_mem hmem
  rw [if_neg hne]
  refine ⟨?_, ⟨c1, hc1c.1, ?_⟩, ?_, nodup_suggestCollect sc cnt 0⟩
  · intro c hcd
    rw [← hcand c hcd]
    exact h3 c
  · rw [← hc1c.2, hc1e]
  · intro c
    simp only
    rw [mem_suggestCollect_zero]
    constructor
    · rintro ⟨_, he⟩
      have := hpos c (by omega)
      exact ⟨this.1, by rw [← this.2, he]⟩
    · rintro ⟨hcd, he⟩
      have hv := hcand c hcd
      refine ⟨?_, by rw [hv, he]⟩
      by_contra hn
      rw [vget_of_not_lt cnt 0 hn] at hv
      have := hcd.2.2
      omega

/-- Users A, B, C, D, E with A-B, A-D, B-C, D-C, B-E, D-E: for A the
candidates C and E are tied with two common friends each. -/
theorem suggestFriends_spec_witness :
    netTies.FriendsInRange ∧ netTies.SetsSorted ∧ netTies.validId 0 ∧
      netTies.IsCandidate 0 2 ∧ netTies.suggestFriends 0 = (2, [2, 4]) ∧
      (∀ c, c ∈ (netTies.suggestFriends 0).2 ↔
        netTies.IsCandidate 0 c ∧
          (netTies.counter 0 c : Int) = (netTies.suggestFriends 0).1) :=
  ⟨by decide, by decide, by decide, by decide, by decide,
    (suggestFriends_spec netTies 0 (by decide) (by decide) (by decide)
      ⟨2, by decide⟩).2.2.1⟩

/-- C11: path validity. In a network whose friend IDs are all valid, for a
valid `from` and a `to` different from it, `shortestPath(from, to)` returns,
and when the path it returns is not empty, its first element is `from`, its
last element is `to`, and every element is followed by one of its friends.
(The validity of `to` is not needed.) -/
theorem shortestPath_walk (net : Network) (src dst : Int)
    (hr : net.FriendsInRange) (hs : net.validId src) (hne : src ≠ dst) :
    ∃ p, net.shortestPath src dst = some p ∧
      (p ≠ [] →
        p.head? = some src ∧ p.getLast? = some dst ∧
        List.Chain' (fun u v => v ∈ net.friendsOf u) p) := by
  rcases Network.shortestPath_cases hr hs hne with ⟨h, _⟩ | ⟨p, d, h1, h2, _, _⟩
  · exact ⟨[], h, fun hc => absurd rfl hc⟩
  · exact ⟨p, h1, fun _ => h2⟩

theorem shortestPath_walk_witness :
    netChain.FriendsInRange ∧ netChain.validId 3 ∧ (3 : Int) ≠ 0 ∧
      netChain.shortestPath 3 0 = some [3, 2, 1, 0] ∧
      ∃ p, netChain.shortestPath 3 0 = some p ∧
        (p ≠ [] →
          p.head? = some 3 ∧ p.getLast? = some 0 ∧
          List.Chain' (fun u v => v ∈ netChain.friendsOf u) p) :=
  ⟨by decide, by decide, by decide, by decide,
    shortestPath_walk netChain 3 0 (by decide) (by decide) (by decide)⟩

/-- C13: name lookup. `getId(name)` returns -1 if and only if no user has
exactly that name; otherwise it returns the smallest position whose user has
exactly that name (string equality, no case folding or trimming). -/
theorem getId_spec (net : Network) (name : String) :
    (net.getId name = -1 ↔ ∀ u ∈ net.users, u.name ≠ name) ∧
    (net.getId name ≠ -1 →
      ∃ k : Nat, ∃ h : k < net.users.length, net.getId name = (k : Int) ∧
        (net.users[k]).name = name ∧
        ∀ j : Nat, ∀ hj : j < net.users.length, j < k → (net.users[j]).name ≠ name) := by
  rcases net.getId_cases name with ⟨h1, h2⟩ | ⟨k, hk, h1, h2, h3⟩
  · exact ⟨⟨fun _ => h2, fun _ => h1⟩, fun hc => absurd h1 hc⟩
  · refine ⟨⟨?_, ?_⟩, fun _ => ⟨k, hk, h1, h2, h3⟩⟩
    · intro h; rw [h1] at h; omega
    · intro h
      exact absurd h2 (h _ (List.getElem_mem _))

/-- C14: reflexive path. `shortestPath(x, x)` returns the single-element path
`[x]` (for every network and every `x`, valid or not). -/
theorem shortestPath_self (net : Network) (x : Int) :
    net.shortestPath x x = some [x] := by
  unfold Network.shortestPath
  rw [if_pos rfl]

/-- C15: invalid query inputs degrade to sentinels. `distanceUser` with
`from < 0`, `from >= numUsers` or `distance < 0` leaves -1 in `to` and returns
the empty path; `suggestFriends` with `who < 0` or `who >= numUsers` leaves 0
in `score` and returns the empty suggestion set. -/
theorem invalid_inputs (net : Network) :
    (∀ src distance : Int, src < 0 ∨ src ≥ net.numUsers ∨ distance < 0 →
      net.distanceUser src distance = some (-1, [])) ∧
    (∀ who : Int, who < 0 ∨ who ≥ net.numUsers →
      net.suggestFriends who = (0, [])) := by
  constructor
  · intro src distance h
    unfold Network.distanceUser
    exact if_pos h
  · intro who h
    have hv : ¬ net.validId who := by
      unfold Network.validId; omega
    have hn : net.getUser who = none := by
      rw [← Option.not_isSome_iff_eq_none, Network.getUser_isSome]; exact hv
    unfold Network.suggestFriends
    rw [hn]

/-- C16, the code at the failing input: in `netABC` the names B and C both
resolve, are different, and the two users are not friends; `addConnection`
establishes the friendship but returns 1, not the 0 that the comment in
network.h documents for success. -/
theorem addConnection_returns_one :
    netABC.getId "B" ≠ -1 ∧ netABC.getId "C" ≠ -1 ∧ "B" ≠ "C" ∧
      netABC.getId "C" ∉ netABC.friendsOf (netABC.getId "B") ∧
      (netABC.addConnection "B" "C").1 = 1 ∧
      netABC.getId "C" ∈ (netABC.addConnection "B" "C").2.friendsOf (netABC.getId "B") ∧
      netABC.getId "B" ∈ (netABC.addConnection "B" "C").2.friendsOf (netABC.getId "C") := by
  decide

/-- C17: the example of the specification. Users A, B, C, D with IDs 0, 1, 2,
3 and no friends, after `addConnection(A,B)`, `addConnection(B,C)`,
`addConnection(C,D)`: `shortestPath(0, 3)` is `[0, 1, 2, 3]`;
`distanceUser(0, to, 2)` leaves 2 in `to` and returns `[0, 1, 2]`; `groups()`
returns the one component `[0, 1, 2, 3]`. -/
theorem spec_example :
    netChain0.users.map (fun u => (u.name, u.friends)) =
        [("A", []), ("B", []), ("C", []), ("D", [])] ∧
      netChain = netChain0.mutateAll [.add "A" "B", .add "B" "C", .add "C" "D"] ∧
      netChain.shortestPath 0 3 = some [0, 1, 2, 3] ∧
      netChain.distanceUser 0 2 = some (2, [0, 1, 2]) ∧
      netChain.groups = some [[0, 1, 2, 3]] := by
  decide

/-! ## Connecting and disconnecting again -/

theorem modify_eq_self_of_fix {α : Type} (l : List α) (k : Nat) (f : α → α)
    (h : ∀ u, l[k]? = some u → f u = u) : l.modify f k = l := by
  apply List.ext_getElem?
  intro n
  rw [List.getElem?_modify]
  by_cases e : k = n
  · subst e
    cases hu : l[k]? with
    | none => rfl
    | some u => simp [h u hu]
  · cases l[n]? <;> simp [e]

theorem Network.addConnection_one {net : Network} {s1 s2 : String}
    (h : (net.addConnection s1 s2).1 = 1) :
    s1 ≠ s2 ∧ net.getId s1 ≠ -1 ∧ net.getId s2 ≠ -1 ∧
      net.getId s2 ∉ net.friendsOf (net.getId s1) ∧
      (net.addConnection s1 s2).2 =
        (net.modifyUser (net.getId s1) (fun u => u.addFriend (net.getId s2))).modifyUser
          (net.getId s2) (fun u => u.addFriend (net.getId s1)) := by
  unfold Network.addConnection at h ⊢
  by_cases hs : s1 = s2
  · rw [if_pos hs] at h; simp at h
  · rw [if_neg hs] at h ⊢
    simp only at h ⊢
    by_cases hid : net.getId s1 = -1 ∨ net.getId s2 = -1
    · rw [if_pos hid] at h; simp at h
    · rw [if_neg hid] at h ⊢
      by_cases hfr : net.getId s2 ∈ net.friendsOf (net.getId s1)
      · rw [if_pos hfr] at h; simp at h
      · rw [if_neg hfr]
        exact ⟨hs, by tauto, by tauto, hfr, rfl⟩

theorem Network.getId_modifyUser (net : Network) (id : Int) (f : User → User)
    (hf : ∀ u, (f u).name = u.name) (name : String) :
    (net.modifyUser id f).getId name = net.getId name := by
  unfold Network.getId
  exact getIdFrom_congr name _ _ 0 (Network.map_name_modifyUser net id f hf)

/-- Undoing at both ends of a pair what was done there gives the user list
back. -/
theorem modify_pair_undo {α : Type} (l : List α) {k1 k2 : Nat} (hne : k1 ≠ k2)
    (a1 a2 d1 d2 : α → α)
    (h1 : ∀ u, l[k1]? = some u → d1 (a1 u) = u)
    (h2 : ∀ u, l[k2]? = some u → d2 (a2 u) = u) :
    (((l.modify a1 k1).modify a2 k2).modify d1 k1).modify d2 k2 = l ∧
      (((l.modify a1 k1).modify a2 k2).modify d2 k2).modify d1 k1 = l := by
  have e1 : l.modify (d1 ∘ a1) k1 = l := modify_eq_self_of_fix l k1 _ h1
  have e2 : l.modify (d2 ∘ a2) k2 = l := modify_eq_self_of_fix l k2 _ h2
  constructor
  · have c : ((l.modify a1 k1).modify a2 k2).modify d1 k1 =
        ((l.modify a1 k1).modify d1 k1).modify a2 k2 :=
      List.modify_modify_ne a2 d1 _ (Ne.symm hne)
    rw [c, List.modify_modify_eq, List.modify_modify_eq, e1, e2]
  · have c : ((l.modify a1 k1).modify (d2 ∘ a2) k2).modify d1 k1 =
        ((l.modify a1 k1).modify d1 k1).modify (d2 ∘ a2) k2 :=
      List.modify_modify_ne (d2 ∘ a2) d1 _ (Ne.symm hne)
    rw [List.modify_modify_eq, c, List.modify_modify_eq, e1, e2]

/-- C20: connect then disconnect is a round trip. On a symmetric network, if
`addConnection(s1, s2)` returns 1, then `deleteConnection(s1, s2)` called next
returns 0 and leaves the network that was there before the `addConnection`;
and so does `deleteConnection(s2, s1)` called next instead. -/
theorem connect_disconnect_roundtrip (net : Network) (s1 s2 : String)
    (hsym : net.Symmetric) (h : (net.addConnection s1 s2).1 = 1) :
    (net.addConnection s1 s2).2.deleteConnection s1 s2 = (0, net) ∧
      (net.addConnection s1 s2).2.deleteConnection s2 s1 = (0, net) := by
  obtain ⟨hs, hi1, hi2, hfr, hnet⟩ := Network.addConnection_one h
  obtain ⟨v1, v2, hne⟩ := Network.getId_pair hs hi1 hi2
  have hfr2 : net.getId s1 ∉ net.friendsOf (net.getId s2) :=
    fun hc => hfr ((hsym _ _ v1 v2).2 hc)
  have hname : ∀ (x : Int) (u : User), (u.addFriend x).name = u.name := fun _ _ => rfl
  -- the names resolve as before
  have hg : ∀ name, (net.addConnection s1 s2).2.getId name = net.getId name := by
    intro name
    rw [hnet, Network.getId_modifyUser _ _ _ (hname _), Network.getId_modifyUser _ _ _ (hname _)]
  -- the new friend sets
  have hf := Network.friendsOf_pairUpdate net v1 v2 hne (setInsert (net.getId s2))
    (setInsert (net.getId s1))
  have hf1 : net.getId s2 ∈ (net.addConnection s1 s2).2.friendsOf (net.getId s1) := by
    rw [hnet]
    have := hf (net.getId s1)
    rw [if_pos rfl] at this
    show net.getId s2 ∈ ((net.modifyUser _ (fun u => { u with friends := setInsert _ u.friends })).modifyUser _
        (fun u => { u with friends := setInsert _ u.friends })).friendsOf _
    rw [this, mem_setInsert]
    exact Or.inl rfl
  have hf2 : net.getId s1 ∈ (net.addConnection s1 s2).2.friendsOf (net.getId s2) := by
    rw [hnet]
    have := hf (net.getId s2)
    rw [if_neg (Ne.symm hne), if_pos rfl] at this
    show net.getId s1 ∈ ((net.modifyUser _ (fun u => { u with friends := setInsert _ u.friends })).modifyUser _
        (fun u => { u with friends := setInsert _ u.friends })).friendsOf _
    rw [this, mem_setInsert]
    exact Or.inl rfl
  -- the user list after both pairs of updates
  obtain ⟨k1, e1, hk1⟩ := Network.validId_iff.1 v1
  obtain ⟨k2, e2, hk2⟩ := Network.validId_iff.1 v2
  have hk : k1 ≠ k2 := by
    intro hc; apply hne; rw [e1, e2, hc]
  have hu1 : ∀ u, net.users[k1]? = some u →
      (u.addFriend (net.getId s2)).deleteFriend (net.getId s2) = u := by
    intro u hu
    have hfu : net.friendsOf (net.getId s1) = u.friends := by
      rw [e1, Network.friendsOf_nat k1 hk1]
      rw [List.getElem?_eq_getElem hk1] at hu
      simp only [Option.some.injEq] at hu
      rw [hu]
    rw [hfu] at hfr
    show ({ u with friends := setErase _ (setInsert _ u.friends) } : User) = u
    rw [setErase_setInsert hfr]
  have hu2 : ∀ u, net.users[k2]? = some u →
      (u.addFriend (net.getId s1)).deleteFriend (net.getId s1) = u := by
    intro u hu
    have hfu : net.friendsOf (net.getId s2) = u.friends := by
      rw [e2, Network.friendsOf_nat k2 hk2]
      rw [List.getElem?_eq_getElem hk2] at hu
      simp only [Option.some.injEq] at hu
      rw [hu]
    rw [hfu] at hfr2
    show ({ u with friends := setErase _ (setInsert _ u.friends) } : User) = u
    rw [setErase_setInsert hfr2]
  obtain ⟨m1, m2⟩ := modify_pair_undo net.users hk
    (fun u => u.addFriend (net.getId s2)) (fun u => u.addFriend (net.getId s1))
    (fun u => u.deleteFriend (net.getId s2)) (fun u => u.deleteFriend (net.getId s1))
    hu1 hu2
  rw [e1, e2] at m1 m2
  constructor
  · unfold Network.deleteConnection
    rw [if_neg hs]
    simp only [hg]
    rw [if_neg (by tauto), if_neg (not_not.2 hf1), hnet, e1, e2]
    simp only [Network.modifyUser_nat, m1]
  · unfold Network.deleteConnection
    rw [if_neg (Ne.symm hs)]
    simp only [hg]
    rw [if_neg (by tauto), if_neg (not_not.2 hf2), hnet, e1, e2]
    simp only [Network.modifyUser_nat, m2]

theorem connect_disconnect_roundtrip_witness :
    netABC.Symmetric ∧ (netABC.addConnection "B" "C").1 = 1 ∧
      (netABC.addConnection "B" "C").2.deleteConnection "B" "C" = (0, netABC) ∧
      (netABC.addConnection "B" "C").2.deleteConnection "C" "B" = (0, netABC) :=
  ⟨by decide, by decide,
    connect_disconnect_roundtrip netABC "B" "C" (by decide) (by decide)⟩

/-! ## The shared search under two tests -/

theorem bfsScan_ret_fresh {stop : Int → Int → Bool} {u : Int} :
    ∀ (rest : List Int) (st st1 : DistState) (x : Int),
      bfsScan stop u rest st = .ret (st1, x) → vget st.visited x false = false := by
  intro rest
  induction rest with
  | nil => intro st st1 x h; simp [bfsScan] at h
  | cons y rest ih =>
    intro st st1 x h
    unfold bfsScan at h
    by_cases hv : vget st.visited y false = false
    · rw [if_pos hv] at h
      simp only at h
      split_ifs at h with hstop
      · simp only [LoopStep.ret.injEq, Prod.mk.injEq] at h
        rw [← h.2]; exact hv
      · have := ih _ st1 x h
        by_contra hc
        have hx : vget st.visited x false = true := by simpa using hc
        rw [vget_visited_mono hx] at this
        cases this
    · rw [if_neg hv] at h
      exact ih st st1 x h

theorem bfsScan_cont_mono {stop : Int → Int → Bool} {u : Int} :
    ∀ (rest : List Int) (st st1 : DistState),
      bfsScan stop u rest st = .cont st1 →
      ∀ w, vget st.visited w false = true → vget st1.visited w false = true := by
  intro rest
  induction rest with
  | nil =>
    intro st st1 h w hw
    simp only [bfsScan, LoopStep.cont.injEq] at h
    rw [← h]; exact hw
  | cons y rest ih =>
    intro st st1 h w hw
    unfold bfsScan at h
    by_cases hv : vget st.visited y false = false
    · rw [if_pos hv] at h
      simp only at h
      split_ifs at h with hstop
      exact ih _ st1 h w (vget_visited_mono hw)
    · rw [if_neg hv] at h
      exact ih st st1 h w hw

/-- When the friends loop returns at `x` under one test, it returns in the
same state under the test "is `x`". -/
theorem bfsScan_agree_ret {stop : Int → Int → Bool} {u : Int} :
    ∀ (rest : List Int) (st st1 : DistState) (x : Int),
      (∀ y ∈ rest, 0 ≤ y ∧ y < (st.visited.length : Int)) →
      bfsScan stop u rest st = .ret (st1, x) →
      bfsScan (fun y _ => decide (y = x)) u rest st = .ret (st1, x) := by
  intro rest
  induction rest with
  | nil => intro st st1 x _ h; simp [bfsScan] at h
  | cons y rest ih =>
    intro st st1 x hval h
    have hy := hval y (List.mem_cons_self _ _)
    unfold bfsScan at h ⊢
    by_cases hv : vget st.visited y false = false
    · rw [if_pos hv] at h ⊢
      simp only at h ⊢
      by_cases hstop : stop y (vget (vset st.dist y (vget st.dist u (-1) + 1)) y (-1)) = true
      · rw [if_pos hstop] at h
        simp only [LoopStep.ret.injEq, Prod.mk.injEq] at h
        rw [if_pos (by simp [h.2])]
        simp only [LoopStep.ret.injEq, Prod.mk.injEq]
        exact h
      · rw [if_neg hstop] at h
        have hfresh := bfsScan_ret_fresh rest _ st1 x h
        simp only at hfresh
        have hyx : y ≠ x := by
          intro e
          rw [← e, vget_vset_self st.visited true false hy.1 hy.2] at hfresh
          cases hfresh
        rw [if_neg (by simp [hyx])]
        exact ih _ st1 x (by
          intro z hz
          simp only [length_vset]
          exact hval z (List.mem_cons_of_mem _ hz)) h
    · rw [if_neg hv] at h ⊢
      exact ih st st1 x (fun z hz => hval z (List.mem_cons_of_mem _ hz)) h

/-- When the friends loop runs through under one test and leaves `x`
unvisited, it does the same under the test "is `x`". -/
theorem bfsScan_agree_cont {stop : Int → Int → Bool} {u : Int} :
    ∀ (rest : List Int) (st st1 : DistState) (x : Int),
      (∀ y ∈ rest, 0 ≤ y ∧ y < (st.visited.length : Int)) →
      bfsScan stop u rest st = .cont st1 → vget st1.visited x false = false →
      bfsScan (fun y _ => decide (y = x)) u rest st = .cont st1 := by
  intro rest
  induction rest with
  | nil => intro st st1 x _ h _; exact h
  | cons y rest ih =>
    intro st st1 x hval h hx
    have hy := hval y (List.mem_cons_self _ _)
    unfold bfsScan at h ⊢
    by_cases hv : vget st.visited y false = false
    · rw [if_pos hv] at h ⊢
      simp only at h ⊢
      split_ifs at h with hstop
      have hyv := bfsScan_cont_mono rest _ st1 h y
        (vget_vset_self st.visited true false hy.1 hy.2)
      have hyx : y ≠ x := by
        intro e
        rw [e, hx] at hyv
        cases hyv
      rw [if_neg (by simp [hyx])]
      exact ih _ st1 x (by
        intro z hz
        simp only [length_vset]
        exact hval z (List.mem_cons_of_mem _ hz)) h hx
    · rw [if_neg hv] at h ⊢
      exact ih st st1 x (fun z hz => hval z (List.mem_cons_of_mem _ hz)) h hx

theorem bfsLoop_ret_fresh {net : Network} {stop : Int → Int → Bool} :
    ∀ (fuel : Nat) (st st1 : DistState) (x : Int),
      bfsLoop net stop fuel st = some (.ret (st1, x)) → vget st.visited x false = false := by
  intro fuel
  induction fuel with
  | zero => intro st st1 x h; simp [bfsLoop] at h
  | succ fuel ih =>
    intro st st1 x h
    unfold bfsLoop at h
    cases hq : st.queue with
    | nil => rw [hq] at h; simp at h
    | cons v q =>
      rw [hq] at h
      simp only at h
      cases hscan : bfsScan stop v (net.friendsOf v) { st with queue := q } with
      | ret r =>
        rw [hscan] at h
        simp only [Option.some.injEq, LoopStep.ret.injEq] at h
        subst h
        have hf := bfsScan_ret_fresh _ _ st1 x hscan
        exact hf
      | cont st2 =>
        rw [hscan] at h
        simp only at h
        have h2 := ih st2 st1 x h
        by_contra hc
        have hx : vget st.visited x false = true := by simpa using hc
        rw [bfsScan_cont_mono _ _ st2 hscan x hx] at h2
        cases h2

/-- When the search returns at `x` under one test, it returns in the same
state under the test "is `x`". -/
theorem bfsLoop_agree {net : Network} (hr : net.FriendsInRange) {stop : Int → Int → Bool} :
    ∀ (fuel : Nat) (st st1 : DistState) (x : Int),
      st.visited.length = net.users.length →
      bfsLoop net stop fuel st = some (.ret (st1, x)) →
      bfsLoop net (fun y _ => decide (y = x)) fuel st = some (.ret (st1, x)) := by
  intro fuel
  induction fuel with
  | zero => intro st st1 x _ h; simp [bfsLoop] at h
  | succ fuel ih =>
    intro st st1 x hl h
    unfold bfsLoop at h ⊢
    cases hq : st.queue with
    | nil => rw [hq] at h; simp at h
    | cons v q =>
      rw [hq] at h
      simp only at h ⊢
      have hval : ∀ y ∈ net.friendsOf v,
          0 ≤ y ∧ y < ((({ st with queue := q } : DistState).visited.length : Nat) : Int) := by
        intro y hy
        simp only [hl]
        exact hr.valid hy
      cases hscan : bfsScan stop v (net.friendsOf v) { st with queue := q } with
      | ret r =>
        rw [hscan] at h
        simp only [Option.some.injEq, LoopStep.ret.injEq] at h
        subst h
        rw [bfsScan_agree_ret _ _ st1 x hval hscan]
      | cont st2 =>
        rw [hscan] at h
        simp only at h
        have hfresh := bfsLoop_ret_fresh fuel st2 st1 x h
        rw [bfsScan_agree_cont _ _ st2 x hval hscan hfresh]
        simp only
        have hl2 := (bfsScan_measure _ _ hval st2 hscan).2
        exact ih st2 st1 x (by rw [hl2]; exact hl) h

/-- C19: the two breadth-first searches agree. In a network whose friend IDs
are all valid, for a valid `from` and a distance of at least 1, `distanceUser`
returns, and when it finds a user (the ID left in `to` is not -1), the path it
returns is the path that `shortestPath(from, to)` returns. -/
theorem distanceUser_path_eq_shortestPath (net : Network) (src distance : Int)
    (hr : net.FriendsInRange) (hs : net.validId src) (hd : 1 ≤ distance) :
    ∃ r, net.distanceUser src distance = some r ∧
      (r.1 ≠ -1 → net.shortestPath src r.1 = some r.2) := by
  obtain ⟨r, hrun, hres⟩ := bfs_total hr (fun _ d => decide (d = distance)) hs
  rw [Network.distanceUser_eq net hs (by omega), hrun]
  cases r with
  | cont st => exact ⟨(-1, []), rfl, fun hc => absurd rfl hc⟩
  | ret r =>
    obtain ⟨st1, x⟩ := r
    obtain ⟨ht, hv, hxs, _, _⟩ := hres
    obtain ⟨p, d, h1, _, _, _, _⟩ := reconstruct_spec ht hv
    refine ⟨(x, p), ?_, fun _ => ?_⟩
    · show Option.map (fun path => (x, path)) (reconstruct st1.pred x) = some (x, p)
      rw [h1]; rfl
    · have hagree := bfsLoop_agree hr _ _ st1 x (treeInv_init hs).lenV hrun
      rw [Network.shortestPath_eq net (Ne.symm hxs), hagree]
      exact h1

theorem distanceUser_path_eq_shortestPath_witness :
    netTies.FriendsInRange ∧ netTies.validId 0 ∧ (1 : Int) ≤ 2 ∧
      netTies.distanceUser 0 2 = some (2, [0, 1, 2]) ∧
      netTies.shortestPath 0 2 = some [0, 1, 2] ∧
      ∃ r, netTies.distanceUser 0 2 = some r ∧
        (r.1 ≠ -1 → netTies.shortestPath 0 r.1 = some r.2) :=
  ⟨by decide, by decide, by decide, by decide, by decide,
    distanceUser_path_eq_shortestPath netTies 0 2 (by decide) (by decide) (by decide)⟩

/-! ## Reachability -/

theorem Network.reachable_iff_reflTransGen {net : Network} {s t : Int} :
    net.Reachable s t ↔ Relation.ReflTransGen (fun u v => v ∈ net.friendsOf u) s t := by
  rw [Network.reachable_iff]
  constructor
  · rintro ⟨k, hk⟩
    induction k generalizing t with
    | zero => have : t = s := hk; rw [this]
    | succ k ih =>
      obtain ⟨u, hu, ht⟩ := hk
      exact Relation.ReflTransGen.tail (ih hu) ht
  · intro h
    induction h with
    | refl => exact ⟨0, rfl⟩
    | tail _ hbc ih =>
      obtain ⟨k, hk⟩ := ih
      exact ⟨k + 1, _, hk, hbc⟩

theorem Network.Reachable.refl (net : Network) (s : Int) : net.Reachable s s :=
  Network.reachable_iff_reflTransGen.2 Relation.ReflTransGen.refl

theorem Network.Reachable.step {net : Network} {s u x : Int}
    (h : net.Reachable s u) (hx : x ∈ net.friendsOf u) : net.Reachable s x :=
  Network.reachable_iff_reflTransGen.2
    (Relation.ReflTransGen.tail (Network.reachable_iff_reflTransGen.1 h) hx)

theorem Network.Reachable.trans {net : Network} {a b c : Int}
    (h1 : net.Reachable a b) (h2 : net.Reachable b c) : net.Reachable a c :=
  Network.reachable_iff_reflTransGen.2
    ((Network.reachable_iff_reflTransGen.1 h1).trans (Network.reachable_iff_reflTransGen.1 h2))

/-- In a symmetric network with valid friend IDs, reachability is symmetric. -/
theorem reachable_symm {net : Network} (hsym : net.Symmetric)
    (hr : net.FriendsInRange) {a b : Int} (h : net.Reachable a b) : net.Reachable b a := by
  rw [Network.reachable_iff_reflTransGen] at h ⊢
  have hs : Symmetric (fun u v : Int => v ∈ net.friendsOf u) := by
    intro u v huv
    exact (hsym u v (Network.valid_of_friendsOf huv) (hr.valid huv)).1 huv
  exact Relation.ReflTransGen.symmetric hs h

theorem Closed.reachable {net : Network} {visited : List Bool} (hc : Closed net visited)
    {s w : Int} (hs : vget visited s false = true) (h : net.Reachable s w) :
    vget visited w false = true := by
  obtain ⟨k, hk⟩ := Network.reachable_iff.1 h
  exact hc.reachIn hs k w hk

/-- Nothing but itself is reachable from a user without friends. -/
theorem Network.reachable_of_friendless {net : Network} {u x : Int}
    (hu : net.friendsOf u = []) (h : net.Reachable u x) : x = u := by
  rw [Network.reachable_iff_reflTransGen] at h
  induction h with
  | refl => rfl
  | tail _ hbc ih =>
    rw [ih, hu] at hbc
    cases hbc

/-! ## Depth-first search and reachability -/

theorem dfsScan_frame {net : Network} :
    ∀ (rest : List Int) (st : DfsState), (∀ y ∈ rest, net.validId y) →
      st.visited.length = net.users.length →
      (dfsScan rest st).visited.length = net.users.length ∧
      (dfsScan rest st).component = st.component ∧
      (∀ x ∈ (dfsScan rest st).stack, x ∈ rest ∨ x ∈ st.stack) ∧
      (∀ y ∈ rest, vget (dfsScan rest st).visited y false = true) ∧
      ∀ w, vget st.visited w false = true → vget (dfsScan rest st).visited w false = true := by
  intro rest
  induction rest with
  | nil =>
    intro st _ hl
    exact ⟨hl, rfl, fun x hx => Or.inr hx, fun y hy => absurd hy (List.not_mem_nil y),
      fun _ hw => hw⟩
  | cons y rest ih =>
    intro st hv hl
    have hy : 0 ≤ y ∧ y < (st.visited.length : Int) := by
      rw [hl]; exact hv y (List.mem_cons_self _ _)
    have hrest : ∀ z ∈ rest, net.validId z := fun z hz => hv z (List.mem_cons_of_mem _ hz)
    unfold dfsScan
    by_cases hnv : vget st.visited y false = false
    · rw [if_pos hnv]
      obtain ⟨i1, i2, i3, i4, i5⟩ := ih
        { st with visited := vset st.visited y true, stack := y :: st.stack } hrest
        (by simp only [length_vset]; exact hl)
      refine ⟨i1, i2, ?_, ?_, fun w hw => i5 w (vget_visited_mono hw)⟩
      · intro x hx
        rcases i3 x hx with h | h
        · exact Or.inl (List.mem_cons_of_mem _ h)
        · rcases List.mem_cons.1 h with h | h
          · exact Or.inl (by rw [h]; exact List.mem_cons_self _ _)
          · exact Or.inr h
      · intro z hz
        rcases List.mem_cons.1 hz with h | h
        · rw [h]
          exact i5 y (vget_vset_self st.visited true false hy.1 hy.2)
        · exact i4 z h
    · rw [if_neg hnv]
      have hyv : vget st.visited y false = true := by simpa using hnv
      obtain ⟨i1, i2, i3, i4, i5⟩ := ih st hrest hl
      refine ⟨i1, i2, ?_, ?_, i5⟩
      · intro x hx
        rcases i3 x hx with h | h
        · exact Or.inl (List.mem_cons_of_mem _ h)
        · exact Or.inr h
      · intro z hz
        rcases List.mem_cons.1 hz with h | h
        · rw [h]; exact i5 y hyv
        · exact i4 z h

theorem dfsLoop_reach {net : Network} (hr : net.FriendsInRange) {r : Int} :
    ∀ (fuel : Nat) (st st1 : DfsState), st.visited.length = net.users.length →
      DfsReach net r st → dfsLoop net fuel st = some st1 → DfsReach net r st1 := by
  intro fuel
  induction fuel with
  | zero => intro st st1 _ _ h; simp [dfsLoop] at h
  | succ fuel ih =>
    intro st st1 hl hd h
    unfold dfsLoop at h
    cases hs : st.stack with
    | nil =>
      rw [hs] at h
      simp only [Option.some.injEq] at h
      rw [← h]; exact hd
    | cons cur stack =>
      rw [hs] at h
      simp only at h
      have hcur : net.Reachable r cur :=
        hd.reach cur (List.mem_append.2 (Or.inr (by rw [hs]; exact List.mem_cons_self _ _)))
      obtain ⟨f1, f2, f3, f4, f5⟩ := dfsScan_frame (net.friendsOf cur)
        { st with component := st.component ++ [cur], stack := stack }
        (fun y hy => hr.valid hy) hl
      refine ih _ st1 f1 ⟨?_, ?_, ?_⟩ h
      · intro x hx
        rw [f2] at hx
        rcases List.mem_append.1 hx with hx | hx
        · rcases List.mem_append.1 hx with hx | hx
          · exact hd.reach x (List.mem_append.2 (Or.inl hx))
          · rw [List.mem_singleton] at hx
            rw [hx]; exact hcur
        · rcases f3 x hx with hx | hx
          · exact hcur.step hx
          · exact hd.reach x (List.mem_append.2 (Or.inr (by
              rw [hs]; exact List.mem_cons_of_mem _ hx)))
      · intro x hx y hy
        rw [f2] at hx
        rcases List.mem_append.1 hx with hx | hx
        · exact f5 y (hd.closed x hx y hy)
        · rw [List.mem_singleton] at hx
          rw [hx] at hy
          exact f4 y hy
      · right
        rw [f2]
        rcases hd.head with ⟨h1, h2⟩ | h1
        · rw [hs] at h2
          simp only [List.cons.injEq] at h2
          simp only [h1, List.nil_append, List.head?_cons, h2.1]
        · cases hc : st.component with
          | nil => rw [hc] at h1; simp at h1
          | cons a t => rw [hc] at h1; simpa using h1

/-- One call of `dfs` from `groups`: the component it returns starts with the
root, holds only nodes reachable from the root, and the friends of its nodes
are all visited afterwards. -/
theorem dfs_reach {net : Network} (hr : net.FriendsInRange) {visited visited1 : List Bool}
    {component : List Int} (hl : visited.length = net.users.length) {v : Int}
    (hrun : net.dfs v visited [] = some (visited1, component)) (hne : component ≠ []) :
    component.head? = some v ∧ (∀ x ∈ component, net.Reachable v x) ∧
      ∀ x ∈ component, ∀ y ∈ net.friendsOf x, vget visited1 y false = true := by
  unfold Network.dfs at hrun
  cases hloop : dfsLoop net (net.users.length + 1)
      { visited := vset visited v true, component := [], stack := [v] } with
  | none => rw [hloop] at hrun; cases hrun
  | some st1 =>
    rw [hloop] at hrun
    simp only [Option.map_some', Option.some.injEq, Prod.mk.injEq] at hrun
    obtain ⟨e1, e2⟩ := hrun
    have h0 : DfsReach net v
        { visited := vset visited v true, component := [], stack := [v] } := by
      refine ⟨?_, ?_, Or.inl ⟨rfl, rfl⟩⟩
      · intro x hx
        simp only [List.nil_append, List.mem_singleton] at hx
        rw [hx]; exact Network.Reachable.refl net v
      · intro x hx; cases hx
    have h1 := dfsLoop_reach hr _ _ st1 (by simp only [length_vset]; exact hl) h0 hloop
    subst e1
    subst e2
    refine ⟨?_, fun x hx => h1.reach x (List.mem_append.2 (Or.inl hx)), h1.closed⟩
    rcases h1.head with ⟨hc, _⟩ | hc
    · exact absurd hc hne
    · exact hc

theorem groupsLoop_order {net : Network} (hsym : net.Symmetric) (hr : net.FriendsInRange) :
    ∀ (m i : Nat) (visited : List Bool) (components result : List (List Int)),
      i + m = net.users.length → GroupsInv net visited components →
      GroupsOrder net i visited components →
      groupsLoop net (List.range' i m) visited components = some result →
      ∃ visited1, GroupsOrder net (i + m) visited1 result := by
  intro m
  induction m with
  | zero =>
    intro i visited components result _ _ ho h
    simp only [List.range'_zero, groupsLoop, Option.some.injEq] at h
    rw [← h]
    exact ⟨visited, ho⟩
  | succ m ih =>
    intro i visited components result hn hg ho h
    rw [List.range'_succ] at h
    unfold groupsLoop at h
    have hi : net.validId (i : Int) :=
      ⟨by omega, by unfold Network.numUsers; omega⟩
    have hsum : i + (m + 1) = i + 1 + m := by omega
    rw [hsum]
    by_cases hnv : vget visited (i : Int) false = false
    · rw [if_pos hnv] at h
      obtain ⟨visited1, component, hrun, hg1, hv1, hmono⟩ := dfs_spec hr hg hi hnv
      rw [hrun] at h
      simp only at h
      have hcne : component ≠ [] :=
        hg1.nonempty component (List.mem_append.2 (Or.inr (List.mem_singleton.2 rfl)))
      obtain ⟨d1, d2, d3⟩ := dfs_reach hr hg.lenV hrun hcne
      have hmark1 : ∀ x, vget visited1 x false = true ↔
          x ∈ components.flatten ∨ x ∈ component := by
        intro x
        rw [hg1.marked x]
        simp
      have hdisj : ∀ x ∈ component, x ∉ components.flatten := by
        intro x hx hx2
        have hnd := hg1.nodup
        simp only [List.flatten_append, List.flatten_cons, List.flatten_nil,
          List.append_nil] at hnd
        exact (List.nodup_append.1 hnd).2.2 hx2 hx
      have hclosed1 : Closed net visited1 := by
        intro w hw y hy
        rcases (hmark1 w).1 hw with hw2 | hw2
        · exact hmono y (ho.closed w ((hg.marked w).2 hw2) y hy)
        · exact d3 w hw2 y hy
      refine ih (i + 1) visited1 _ result (by omega) hg1 ⟨hclosed1, ?_, ?_, ?_⟩ h
      · intro j hj hjn
        by_cases e : j = i
        · rw [e]; exact hv1
        · exact hmono _ (ho.below j (by omega) hjn)
      · intro c hc
        rcases List.mem_append.1 hc with hc | hc
        · obtain ⟨r, c1, c2, c3, c4⟩ := ho.comp c hc
          exact ⟨r, c1, by omega, c3, c4⟩
        · rw [List.mem_singleton] at hc
          subst hc
          refine ⟨i, d1, by omega, ?_, ?_⟩
          · intro x hx
            have hxv : vget visited1 x false = true := (hmark1 x).2 (Or.inr hx)
            have hxr := lt_length_of_vget_true hxv
            rw [hg1.lenV] at hxr
            by_contra hlt
            have hx0 : vget visited x false = true := by
              have := ho.below x.toNat (by omega) (by omega)
              rwa [Int.toNat_of_nonneg hxr.1] at this
            exact hdisj x hx ((hg.marked x).1 hx0)
          · intro x
            refine ⟨d2 x, ?_⟩
            intro hx
            have hxv : vget visited1 x false = true := hclosed1.reachable hv1 hx
            rcases (hmark1 x).1 hxv with h2 | h2
            · exfalso
              have hx0 : vget visited x false = true := (hg.marked x).2 h2
              have := ho.closed.reachable hx0 (reachable_symm hsym hr hx)
              rw [this] at hnv
              cases hnv
            · exact h2
      · rw [List.pairwise_append]
        refine ⟨ho.sorted, List.pairwise_singleton _ _, ?_⟩
        intro c1 hc1 c2 hc2 r1 r2 hr1 hr2
        rw [List.mem_singleton] at hc2
        subst hc2
        obtain ⟨r, e1, e2, _, _⟩ := ho.comp c1 hc1
        rw [e1] at hr1
        rw [d1] at hr2
        simp only [Option.some.injEq] at hr1 hr2
        omega
    · rw [if_neg hnv] at h
      have hv : vget visited (i : Int) false = true := by simpa using hnv
      refine ih (i + 1) visited components result (by omega) hg ⟨ho.closed, ?_, ?_, ho.sorted⟩ h
      · intro j hj hjn
        by_cases e : j = i
        · rw [e]; exact hv
        · exact ho.below j (by omega) hjn
      · intro c hc
        obtain ⟨r, c1, c2, c3, c4⟩ := ho.comp c hc
        exact ⟨r, c1, by omega, c3, c4⟩

/-- The outcome of `groups` on a symmetric network with valid friend IDs: a
partition of the valid IDs into non-empty components, each of which starts
with its smallest ID and holds exactly what is reachable from it, in the order
of their first elements. -/
theorem groups_structure {net : Network} (hsym : net.Symmetric) (hr : net.FriendsInRange) :
    ∃ components, net.groups = some components ∧
      components.flatten.Nodup ∧
      (∀ x, x ∈ components.flatten ↔ net.validId x) ∧
      (∀ c ∈ components, c ≠ []) ∧
      (∀ c ∈ components, ∃ r : Int, c.head? = some r ∧
        (∀ x ∈ c, r ≤ x) ∧ ∀ x, x ∈ c ↔ net.Reachable r x) ∧
      components.Pairwise
        (fun c1 c2 => ∀ r1 r2 : Int, c1.head? = some r1 → c2.head? = some r2 → r1 < r2) := by
  have h0 : GroupsInv net (List.replicate net.users.length false) [] := by
    refine ⟨by simp, by simp, ?_, by simp⟩
    intro x
    rw [vget_replicate]
    simp
  have o0 : GroupsOrder net 0 (List.replicate net.users.length false) [] := by
    refine ⟨?_, ?_, ?_, List.Pairwise.nil⟩
    · intro w hw
      rw [vget_replicate] at hw
      cases hw
    · intro j hj; exact absurd hj (Nat.not_lt_zero j)
    · intro c hc; cases hc
  obtain ⟨result, visited1, hrun, hg, _, hall⟩ :=
    groupsLoop_spec hr (List.range net.users.length) _ [] h0
      (fun i hi => List.mem_range.1 hi)
  have hrun2 := hrun
  rw [List.range_eq_range'] at hrun2
  obtain ⟨visited2, ho⟩ := groupsLoop_order hsym hr net.users.length 0 _ [] result
    (by omega) h0 o0 hrun2
  refine ⟨result, hrun, hg.nodup, ?_, hg.nonempty, ?_, ho.sorted⟩
  · intro x
    rw [← hg.marked x]
    constructor
    · intro hx
      have := lt_length_of_vget_true hx
      rw [hg.lenV] at this
      exact this
    · intro hx
      obtain ⟨k, rfl, hk⟩ := Network.validId_iff.1 hx
      exact hall k (List.mem_range.2 hk)
  · intro c hc
    obtain ⟨r, c1, _, c3, c4⟩ := ho.comp c hc
    exact ⟨r, c1, c3, c4⟩

/-- C12: components are maximal connected sets. In a symmetric network whose
friend IDs are all valid, `groups()` returns, and two valid IDs `a`, `b` appear
in the same component if and only if `b` is reachable from `a` along friendship
edges; in particular each component contains every user reachable from its
first element. -/
theorem groups_connected (net : Network) (hsym : net.Symmetric) (hr : net.FriendsInRange) :
    ∃ components, net.groups = some components ∧
      (∀ a b, net.validId a → net.validId b →
        ((∃ c ∈ components, a ∈ c ∧ b ∈ c) ↔ net.Reachable a b)) ∧
      (∀ c ∈ components, ∀ r, c.head? = some r → ∀ x, net.Reachable r x → x ∈ c) := by
  obtain ⟨components, hrun, _, hmem, _, hcomp, _⟩ := groups_structure hsym hr
  refine ⟨components, hrun, ?_, ?_⟩
  · intro a b ha _
    constructor
    · rintro ⟨c, hc, hac, hbc⟩
      obtain ⟨r, _, _, hreach⟩ := hcomp c hc
      exact (reachable_symm hsym hr ((hreach a).1 hac)).trans ((hreach b).1 hbc)
    · intro hab
      obtain ⟨c, hc, hac⟩ := List.mem_flatten.1 ((hmem a).2 ha)
      obtain ⟨r, _, _, hreach⟩ := hcomp c hc
      exact ⟨c, hc, hac, (hreach b).2 (((hreach a).1 hac).trans hab)⟩
  · intro c hc r hr1 x hx
    obtain ⟨r2, hr2, _, hreach⟩ := hcomp c hc
    rw [hr1] at hr2
    simp only [Option.some.injEq] at hr2
    subst hr2
    exact (hreach x).2 hx

theorem groups_connected_witness :
    netABC.Symmetric ∧ netABC.FriendsInRange ∧ netABC.groups = some [[0, 1], [2]] ∧
      ∃ components, netABC.groups = some components ∧
        (∀ a b, netABC.validId a → netABC.validId b →
          ((∃ c ∈ components, a ∈ c ∧ b ∈ c) ↔ netABC.Reachable a b)) ∧
        (∀ c ∈ components, ∀ r, c.head? = some r →
          ∀ x, netABC.Reachable r x → x ∈ c) :=
  ⟨by decide, by decide, by decide, groups_connected netABC (by decide) (by decide)⟩

/-- C18: component ordering. In a symmetric network whose friend IDs are all
valid, `groups()` returns; the first element of each component is the smallest
ID in it; the components are listed in strictly increasing order of their
first elements; and every valid user with an empty friend set forms a
component that consists of exactly that one ID. -/
theorem groups_ordering (net : Network) (hsym : net.Symmetric) (hr : net.FriendsInRange) :
    ∃ components, net.groups = some components ∧
      (∀ c ∈ components, ∃ r : Int, c.head? = some r ∧ ∀ x ∈ c, r ≤ x) ∧
      components.Pairwise
        (fun c1 c2 => ∀ r1 r2 : Int, c1.head? = some r1 → c2.head? = some r2 → r1 < r2) ∧
      (∀ u, net.validId u → net.friendsOf u = [] →
        [u] ∈ components ∧ ∀ c ∈ components, u ∈ c → c = [u]) := by
  obtain ⟨components, hrun, hnd, hmem, hne, hcomp, hsorted⟩ := groups_structure hsym hr
  refine ⟨components, hrun, ?_, hsorted, ?_⟩
  · intro c hc
    obtain ⟨r, h1, h2, _⟩ := hcomp c hc
    exact ⟨r, h1, h2⟩
  · intro u hu hfr
    have hsingle : ∀ c ∈ components, u ∈ c → c = [u] := by
      intro c hc huc
      obtain ⟨r, _, _, hreach⟩ := hcomp c hc
      have hru : r = u :=
        Network.reachable_of_friendless hfr (reachable_symm hsym hr ((hreach u).1 huc))
      subst hru
      have hall : ∀ x ∈ c, x = r := fun x hx =>
        Network.reachable_of_friendless hfr ((hreach x).1 hx)
      have hcn : c.Nodup := (List.nodup_flatten.1 hnd).1 c hc
      cases c with
      | nil => cases huc
      | cons a t =>
        have ha := hall a (List.mem_cons_self _ _)
        subst ha
        cases t with
        | nil => rfl
        | cons b t2 =>
          have hb := hall b (List.mem_cons_of_mem _ (List.mem_cons_self _ _))
          subst hb
          simp at hcn
    obtain ⟨c, hc, huc⟩ := List.mem_flatten.1 ((hmem u).2 hu)
    have := hsingle c hc huc
    subst this
    exact ⟨hc, hsingle⟩

theorem groups_ordering_witness :
    netABC.Symmetric ∧ netABC.FriendsInRange ∧ netABC.friendsOf 2 = [] ∧
      netABC.groups = some [[0, 1], [2]] ∧
      ∃ components, netABC.groups = some components ∧
        (∀ c ∈ components, ∃ r : Int, c.head? = some r ∧ ∀ x ∈ c, r ≤ x) ∧
        components.Pairwise
          (fun c1 c2 => ∀ r1 r2 : Int, c1.head? = some r1 → c2.head? = some r2 → r1 < r2) ∧
        (∀ u, netABC.validId u → netABC.friendsOf u = [] →
          [u] ∈ components ∧ ∀ c ∈ components, u ∈ c → c = [u]) :=
  ⟨by decide, by decide, by decide, by decide,
    groups_ordering netABC (by decide) (by decide)⟩

/-- C3, as stated, fails on a network that is not symmetric: in `netOneSided`
the friend IDs are all valid, users 2 and 0 are in different components of
`groups()`, which returns `[[0], [1], [2]]`, and yet `shortestPath(2, 0)` is
not empty: it returns `[2, 1, 0]`. -/
theorem shortestPath_components_counterexample :
    netOneSided.FriendsInRange ∧ netOneSided.validId 2 ∧ netOneSided.validId 0 ∧
      (2 : Int) ≠ 0 ∧
      netOneSided.groups = some [[0], [1], [2]] ∧
      netOneSided.shortestPath 2 0 = some [2, 1, 0] ∧
      ¬ (∀ components, netOneSided.groups = some components →
          (∀ c ∈ components, ¬ ((2 : Int) ∈ c ∧ (0 : Int) ∈ c)) →
          netOneSided.shortestPath 2 0 = some []) := by
  refine ⟨by decide, by decide, by decide, by decide, by decide, by decide, ?_⟩
  intro h
  have h1 := h [[0], [1], [2]] (by decide) (by decide)
  have h2 : netOneSided.shortestPath 2 0 = some [2, 1, 0] := by decide
  rw [h2] at h1
  cases h1

/-- C3, amended: the no-path case. In a network whose friend IDs are all
valid, for a valid `from` and a `to` different from it, `shortestPath(from,
to)` returns the empty sequence if and only if `to` is not reachable from
`from` along friendship edges; and when the network is moreover symmetric,
`groups()` returns and the path is empty whenever no component of `groups()`
holds both users. (The validity of `to` is not needed.) -/
theorem shortestPath_empty_iff_unreachable (net : Network) (src dst : Int)
    (hr : net.FriendsInRange) (hs : net.validId src) (hne : src ≠ dst) :
    (net.shortestPath src dst = some [] ↔ ¬ net.Reachable src dst) ∧
      (net.Symmetric →
        ∃ components, net.groups = some components ∧
          ((∀ c ∈ components, ¬ (src ∈ c ∧ dst ∈ c)) →
            net.shortestPath src dst = some [])) := by
  have hiff : net.shortestPath src dst = some [] ↔ ¬ net.Reachable src dst := by
    rcases Network.shortestPath_cases hr hs hne with ⟨h, hn⟩ | ⟨p, d, h1, h2, h3, _⟩
    · exact ⟨fun _ => hn, fun _ => h⟩
    · constructor
      · intro h
        rw [h1] at h
        simp only [Option.some.injEq] at h
        rw [h] at h3
        simp at h3
      · intro hn
        exact absurd ⟨p, h2⟩ hn
  refine ⟨hiff, ?_⟩
  intro hsym
  obtain ⟨components, hrun, _, hmem, _, hcomp, _⟩ := groups_structure hsym hr
  refine ⟨components, hrun, ?_⟩
  intro hsep
  rw [hiff]
  intro hreach
  obtain ⟨c, hc, hsc⟩ := List.mem_flatten.1 ((hmem src).2 hs)
  obtain ⟨r, _, _, hrc⟩ := hcomp c hc
  exact hsep c hc ⟨hsc, (hrc dst).2 (((hrc src).1 hsc).trans hreach)⟩

theorem shortestPath_empty_iff_unreachable_witness :
    netABC.FriendsInRange ∧ netABC.validId 0 ∧ (0 : Int) ≠ 2 ∧ netABC.Symmetric ∧
      netABC.groups = some [[0, 1], [2]] ∧
      netABC.shortestPath 0 2 = some [] ∧ ¬ netABC.Reachable 0 2 ∧
      ∃ components, netABC.groups = some components ∧
        ((∀ c ∈ components, ¬ ((0 : Int) ∈ c ∧ (2 : Int) ∈ c)) →
          netABC.shortestPath 0 2 = some []) :=
  ⟨by decide, by decide, by decide, by decide, by decide, by decide,
    (shortestPath_empty_iff_unreachable netABC 0 2 (by decide) (by decide)
      (by decide)).1.1 (by decide),
    (shortestPath_empty_iff_unreachable netABC 0 2 (by decide) (by decide)
      (by decide)).2 (by decide)⟩

end SocialNet
